import Mathlib

/-!
Verification of the backward line buffer of PEMessage/file_read_backwards
(src/file_read_backwards/buffer_work_space.py).

Files are modelled as lists of byte values (natural numbers < 256 in practice;
nothing below depends on the bound).  The file handle of the Python code is
modelled by passing the file's byte list around: seeking to `p` and reading
`n` bytes is taking `n` elements after dropping `p`.

Python byte-string builtins used by the source (`rfind`, `find`, `endswith`,
`max` over a list, slicing) are embedded as executable Lean functions below.
-/

namespace FRB

/-- Read of n bytes of the file fp after seeking to position pos: models
`fp.seek(pos); fp.read(n)`. Like the Python read, it returns fewer bytes
only when the end of file is reached. -/
def bRead (fp : List Nat) (pos n : Nat) : List Nat :=
  (fp.drop pos).take n

/-- Slice fp[a:b] of the file, used to state buffer invariants. -/
def slice (fp : List Nat) (a b : Nat) : List Nat :=
  (fp.drop a).take (b - a)

/-- Occurrence predicate: the byte string needle occurs in hay at index i.
This is the notion underlying Python's find/rfind on bytes. -/
def occurAt (hay needle : List Nat) (i : Nat) : Prop :=
  i + needle.length ≤ hay.length ∧ (hay.drop i).take needle.length = needle

instance occurAt.decide (hay needle : List Nat) (i : Nat) :
    Decidable (occurAt hay needle i) := by
  unfold occurAt; infer_instance

/-- Embeds Python's bytes.rfind: the highest index at which needle occurs in
hay, and -1 when there is no occurrence. -/
def bytesRfind (hay needle : List Nat) : Int :=
  match hay with
  | [] => if needle.isEmpty then 0 else -1
  | _ :: rest =>
    let r := bytesRfind rest needle
    if 0 ≤ r then r + 1
    else if needle.isPrefixOf hay then 0 else -1

/-- Embeds Python's bytes.find: the lowest index at which needle occurs in
hay, and -1 when there is no occurrence. -/
def bytesFind (hay needle : List Nat) : Int :=
  match hay with
  | [] => if needle.isEmpty then 0 else -1
  | _ :: rest =>
    if needle.isPrefixOf hay then 0
    else
      let r := bytesFind rest needle
      if 0 ≤ r then r + 1 else -1

/-- Module-level constant new_lines of the source, encoded with the default
utf-8 encoding as in BufferWorkSpace.__init__:
[b"\r\n", b"\n", b"\r"] = [[13, 10], [10], [13]]. -/
def new_lines_bytes_utf8 : List (List Nat) := [[13, 10], [10], [13]]

/-- Stable insertion (longest first) used to embed Python's stable
`sorted(new_lines_bytes, key=len, reverse=True)`: an element is placed in
front of the first element whose length does not exceed its own, so earlier
elements stay in front of later ones of equal length. -/
def insertByLenDesc (x : List Nat) : List (List Nat) → List (List Nat)
  | [] => [x]
  | y :: ys => if y.length ≤ x.length then x :: y :: ys else y :: insertByLenDesc x ys

/-- Stable sort by length, longest first (Python's sorted with key=len,
reverse=True). -/
def sortByLenDesc (l : List (List Nat)) : List (List Nat) :=
  l.foldr insertByLenDesc []

/-- Embeds _remove_trailing_new_line of the source: remove a single instance
of new line at the end of line if it exists, trying the candidate
terminators longest first. -/
def remove_trailing_new_line (line : List Nat) (new_lines_bytes : List (List Nat)) :
    List Nat :=
  match (sortByLenDesc new_lines_bytes).find? (fun n => n.isSuffixOf line) with
  | some n => line.take (line.length - n.length)
  | none => line

/-- Embeds _find_furthest_new_line of the source: -1 if read_buffer holds no
new line, otherwise the position of the rightmost newline, computed as the
maximum of the rfind results of all candidate terminators. -/
def find_furthest_new_line (read_buffer : List Nat) (new_lines_bytes : List (List Nat)) :
    Int :=
  (new_lines_bytes.map (fun n => bytesRfind read_buffer n)).foldr max (-1)

/-- Embeds _is_partially_read_new_line of the source: true when b is part of
a new line separator found at index >= 1 (Python: any n with n.find(b) >= 1). -/
def is_partly_read_new_line (b : List Nat) (new_lines_bytes : List (List Nat)) : Bool :=
  new_lines_bytes.any (fun n => 1 ≤ bytesFind n b)

/-- Embeds the while loop of _get_what_to_read_next: while the seek position
is positive and the single byte there is part of a multi-byte newline
sequence, move the seek position one byte back and enlarge the read size. -/
def seekWalk (fp : List Nat) (new_lines_bytes : List (List Nat)) :
    Nat → Nat → Nat × Nat
  | 0, read_size => (0, read_size)
  | s + 1, read_size =>
    if is_partly_read_new_line (bRead fp (s + 1) 1) new_lines_bytes then
      seekWalk fp new_lines_bytes s (read_size + 1)
    else (s + 1, read_size)

/-- Embeds _get_what_to_read_next of the source: the next seek position and
how many bytes to read next.  Nat subtraction gives the clamping
max(previously_read_position - chunk_size, 0) of the source. -/
def get_what_to_read_next (fp : List Nat) (previously_read_position chunk_size : Nat)
    (new_lines_bytes : List (List Nat)) : Nat × Nat :=
  let p := seekWalk fp new_lines_bytes (previously_read_position - chunk_size) chunk_size
  (p.1, min (previously_read_position - p.1) p.2)

/-- Embeds _get_next_chunk of the source: the data read in and the file
position it was read from. -/
def get_next_chunk (fp : List Nat) (previously_read_position chunk_size : Nat)
    (new_lines_bytes : List (List Nat)) : List Nat × Nat :=
  let p := get_what_to_read_next fp previously_read_position chunk_size new_lines_bytes
  (bRead fp p.1 p.2, p.1)

/-- State of BufferWorkSpace.  The file handle fp is carried as the byte list
of the file; read_position and read_buffer follow the source's convention:
when read_buffer is some b, b is content of the file from read_position
onwards that has not been processed or returned. -/
structure BufferWorkSpace where
  fp : List Nat
  read_position : Nat
  read_buffer : Option (List Nat)
  chunk_size : Nat
  new_lines_bytes : List (List Nat)
deriving Repr, DecidableEq

/-- Embeds BufferWorkSpace.__init__ with the default utf-8 encoding:
read_position is initialized to the file size, the buffer is absent. -/
def BufferWorkSpace.init (fp : List Nat) (chunk_size : Nat) : BufferWorkSpace :=
  { fp := fp
    read_position := fp.length
    read_buffer := none
    chunk_size := chunk_size
    new_lines_bytes := new_lines_bytes_utf8 }

/-- Embeds BufferWorkSpace.add_to_buffer: prepend newly read content and
record the position it was read from. -/
def BufferWorkSpace.add_to_buffer (s : BufferWorkSpace) (content : List Nat)
    (read_position : Nat) : BufferWorkSpace :=
  { s with
    read_position := read_position
    read_buffer := some (match s.read_buffer with
      | none => content
      | some b => content ++ b) }

/-- Embeds BufferWorkSpace.yieldable: whether a line can be returned.  In the
second test of the source (read_position == 0 and read_buffer is not None)
the right conjunct is true in this branch of the match. -/
def BufferWorkSpace.yieldable (s : BufferWorkSpace) : Bool :=
  match s.read_buffer with
  | none => false
  | some buf =>
    let t := remove_trailing_new_line buf s.new_lines_bytes
    let n := find_furthest_new_line t s.new_lines_bytes
    if 0 ≤ n then true
    else if s.read_position = 0 then true
    else false

/-- Embeds BufferWorkSpace.return_line.  The source asserts yieldable() and
would also fail if read_buffer were absent; both failure modes are modelled
as none. -/
def BufferWorkSpace.return_line (s : BufferWorkSpace) :
    Option (List Nat × BufferWorkSpace) :=
  if s.yieldable then
    match s.read_buffer with
    | none => none
    | some buf =>
      let t := remove_trailing_new_line buf s.new_lines_bytes
      let i := find_furthest_new_line t s.new_lines_bytes
      if 0 ≤ i then
        some (t.drop (i.toNat + 1), { s with read_buffer := some (t.take (i.toNat + 1)) })
      else
        some (t, { s with read_buffer := none })
  else none

/-- Embeds BufferWorkSpace.has_returned_every_line: every line has been
returned exactly when read_position is 0 and the buffer is absent. -/
def BufferWorkSpace.has_returned_every_line (s : BufferWorkSpace) : Bool :=
  decide (s.read_position = 0) && s.read_buffer.isNone

/-- Embeds the while loop of BufferWorkSpace.read_until_yieldable with
explicit fuel; the termination theorem below shows that fuel
read_position + 2 always suffices, so the fueled function is a faithful
model of the source's unbounded loop. -/
def read_until_yieldable_fuel : Nat → BufferWorkSpace → Option BufferWorkSpace
  | 0, s => if s.yieldable then some s else none
  | f + 1, s =>
    if s.yieldable then some s
    else
      let p := get_next_chunk s.fp s.read_position s.chunk_size s.new_lines_bytes
      read_until_yieldable_fuel f (s.add_to_buffer p.1 p.2)

/-- Driver of the backward iteration as described by the spec: repeat
read_until_yieldable then return_line until has_returned_every_line, with
fuel bounding the number of produced lines.  Returns the emitted lines in
emission order together with the final state. -/
def runAllF : Nat → BufferWorkSpace → Option (List (List Nat) × BufferWorkSpace)
  | 0, s => if s.has_returned_every_line then some ([], s) else none
  | f + 1, s =>
    if s.has_returned_every_line then some ([], s)
    else
      match read_until_yieldable_fuel (s.read_position + 2) s with
      | none => none
      | some s1 =>
        match s1.return_line with
        | none => none
        | some ls2 =>
          match runAllF f ls2.2 with
          | none => none
          | some r => some (ls2.1 :: r.1, r.2)

/-- Complete backward iteration over a file with a given chunk size: the
sequence of emitted line byte strings (fuel file length + 1 is shown to be
sufficient below). -/
def backward_lines (fp : List Nat) (chunk_size : Nat) : Option (List (List Nat)) :=
  (runAllF (fp.length + 1) (BufferWorkSpace.init fp chunk_size)).map Prod.fst

/-- Abbreviation for the default terminator set. -/
def U : List (List Nat) := new_lines_bytes_utf8

/-- Length of the trailing terminator that remove_trailing_new_line strips
from l with the default terminator set (longest match first). -/
def stripN (l : List Nat) : Nat :=
  if [13, 10].isSuffixOf l then 2
  else if [10].isSuffixOf l then 1
  else if [13].isSuffixOf l then 1
  else 0

/-- Pure reference function on file prefixes, used as the common value of
all runs: the first emitted line of prefix P and the lines of the remaining
prefix, by fuel-bounded recursion. -/
def specLinesF : Nat → List Nat → List (List Nat)
  | 0, _ => []
  | f + 1, P =>
    if P.length = 0 then []
    else
      let t := remove_trailing_new_line P U
      let i := find_furthest_new_line t U
      if 0 ≤ i then t.drop (i.toNat + 1) :: specLinesF f (t.take (i.toNat + 1))
      else [t]

/-- Lines of a file prefix in backward emission order (fuel instantiated
with a sufficient value). -/
def specLines (P : List Nat) : List (List Nat) :=
  specLinesF (P.length + 1) P

/-- Whether a byte is a newline byte of the default terminator set. -/
def isNl (c : Nat) : Bool := c == 10 || c == 13

/-- Number of line terminators in a byte string, scanning left to right and
treating a 13-10 pair as a single terminator. -/
def countTerms : List Nat → Nat
  | [] => 0
  | [c] => if isNl c then 1 else 0
  | c1 :: c2 :: r =>
    if c1 = 13 ∧ c2 = 10 then countTerms r + 1
    else (if isNl c1 then 1 else 0) + countTerms (c2 :: r)

/-- State invariant of the backward iteration: the buffer holds exactly the
file bytes from read_position up to the fixed right boundary E, and the
read position never sits on the second byte of a split two-byte terminator. -/
def Inv (fp : List Nat) (E : Nat) (s : BufferWorkSpace) : Prop :=
  s.fp = fp ∧ s.new_lines_bytes = U ∧ 1 ≤ s.chunk_size ∧
  E ≤ fp.length ∧ s.read_position ≤ E ∧
  (s.read_position = 0 ∨ fp.getD s.read_position 0 ≠ 10) ∧
  ((s.read_buffer = none ∧ s.read_position = E) ∨
   (s.read_buffer = some (slice fp s.read_position E) ∧ s.read_position < E))

/-- One externally visible operation on the buffer: a completed
read_until_yieldable call (any number of chunk reads) or a return_line call. -/
inductive Step : BufferWorkSpace → BufferWorkSpace → Prop
  | fill (f : Nat) (s s' : BufferWorkSpace)
      (h : read_until_yieldable_fuel f s = some s') : Step s s'
  | produce (l : List Nat) (s s' : BufferWorkSpace)
      (h : s.return_line = some (l, s')) : Step s s'

/-- Reachability by any sequence of operations. -/
def Reaches : BufferWorkSpace → BufferWorkSpace → Prop :=
  Relation.ReflTransGen Step

/-! Characterizations of the embedded Python byte-string builtins. -/

lemma isPrefixOf_char : ∀ (a b : List Nat), a.isPrefixOf b = true ↔ b.take a.length = a := by
  intro a
  induction a with
  | nil => intro b; simp [List.isPrefixOf]
  | cons x a ih =>
    intro b
    cases b with
    | nil => simp [List.isPrefixOf]
    | cons y b =>
      simp only [List.isPrefixOf, Bool.and_eq_true, beq_iff_eq, List.length_cons,
        List.take_succ_cons, List.cons.injEq, ih]
      constructor
      · rintro ⟨h1, h2⟩; exact ⟨h1.symm, h2⟩
      · rintro ⟨h1, h2⟩; exact ⟨h1.symm, h2⟩

lemma occurAt_zero (h n : List Nat) : occurAt h n 0 ↔ n.isPrefixOf h = true := by
  rw [isPrefixOf_char]
  constructor
  · rintro ⟨_, h2⟩; simpa using h2
  · intro h2
    refine ⟨?_, by simpa using h2⟩
    have := congrArg List.length h2
    simp [List.length_take] at this
    omega

lemma occurAt_cons_succ (c : Nat) (h n : List Nat) (i : Nat) :
    occurAt (c :: h) n (i + 1) ↔ occurAt h n i := by
  unfold occurAt
  simp only [List.drop_succ_cons, List.length_cons]
  constructor
  · rintro ⟨h1, h2⟩; exact ⟨by omega, h2⟩
  · rintro ⟨h1, h2⟩; exact ⟨by omega, h2⟩

lemma occurAt_nil (n : List Nat) (i : Nat) : occurAt [] n i ↔ n = [] ∧ i = 0 := by
  unfold occurAt
  constructor
  · rintro ⟨h1, h2⟩
    simp only [List.length_nil] at h1
    have hn : n.length = 0 := by omega
    have hi : i = 0 := by omega
    rw [List.length_eq_zero] at hn
    exact ⟨hn, hi⟩
  · rintro ⟨rfl, rfl⟩; simp

theorem bytesRfind_cases (hay needle : List Nat) :
    (∃ i : Nat, bytesRfind hay needle = (i : Int) ∧ occurAt hay needle i ∧
      ∀ j, occurAt hay needle j → j ≤ i) ∨
    (bytesRfind hay needle = -1 ∧ ∀ j, ¬ occurAt hay needle j) := by
  induction hay with
  | nil =>
    by_cases hn : needle = []
    · subst hn
      left
      refine ⟨0, by simp [bytesRfind], ?_, ?_⟩
      · simp [occurAt]
      · intro j hj; rw [occurAt_nil] at hj; omega
    · right
      refine ⟨by simp [bytesRfind, List.isEmpty_iff, hn], ?_⟩
      intro j hj; rw [occurAt_nil] at hj; exact hn hj.1
  | cons c rest ih =>
    rcases ih with ⟨i, hr, hocc, hmax⟩ | ⟨hr, hnone⟩
    · left
      refine ⟨i + 1, ?_, ?_, ?_⟩
      · simp only [bytesRfind, hr]
        rw [if_pos (by positivity)]
        push_cast; ring
      · rw [occurAt_cons_succ]; exact hocc
      · intro j hj
        cases j with
        | zero => omega
        | succ j => rw [occurAt_cons_succ] at hj; exact Nat.succ_le_succ (hmax j hj)
    · have hneg : ¬ (0 : Int) ≤ bytesRfind rest needle := by rw [hr]; decide
      by_cases hp : needle.isPrefixOf (c :: rest) = true
      · left
        refine ⟨0, ?_, ?_, ?_⟩
        · simp only [bytesRfind, hr]
          rw [if_neg (by decide : ¬ (0 : Int) ≤ -1), if_pos hp]
          simp
        · rw [occurAt_zero]; exact hp
        · intro j hj
          cases j with
          | zero => omega
          | succ j => rw [occurAt_cons_succ] at hj; exact absurd hj (hnone j)
      · right
        constructor
        · simp only [bytesRfind, hr]
          rw [if_neg (by decide : ¬ (0 : Int) ≤ -1), if_neg hp]
        · intro j hj
          cases j with
          | zero => rw [occurAt_zero] at hj; exact hp hj
          | succ j => rw [occurAt_cons_succ] at hj; exact hnone j hj

theorem bytesFind_cases (hay needle : List Nat) :
    (∃ i : Nat, bytesFind hay needle = (i : Int) ∧ occurAt hay needle i ∧
      ∀ j, occurAt hay needle j → i ≤ j) ∨
    (bytesFind hay needle = -1 ∧ ∀ j, ¬ occurAt hay needle j) := by
  induction hay with
  | nil =>
    by_cases hn : needle = []
    · subst hn
      left
      refine ⟨0, by simp [bytesFind], by simp [occurAt], ?_⟩
      intro j _; omega
    · right
      refine ⟨by simp [bytesFind, List.isEmpty_iff, hn], ?_⟩
      intro j hj; rw [occurAt_nil] at hj; exact hn hj.1
  | cons c rest ih =>
    by_cases hp : needle.isPrefixOf (c :: rest) = true
    · left
      refine ⟨0, ?_, ?_, ?_⟩
      · simp only [bytesFind, hp, if_pos]; rfl
      · rw [occurAt_zero]; exact hp
      · intro j _; omega
    · rcases ih with ⟨i, hr, hocc, hmin⟩ | ⟨hr, hnone⟩
      · left
        refine ⟨i + 1, ?_, ?_, ?_⟩
        · simp only [bytesFind, hp, if_neg, hr]
          rw [if_neg (by simp [hp]), if_pos (by positivity)]
          push_cast; ring
        · rw [occurAt_cons_succ]; exact hocc
        · intro j hj
          cases j with
          | zero => rw [occurAt_zero] at hj; exact absurd hj hp
          | succ j => rw [occurAt_cons_succ] at hj; exact Nat.succ_le_succ (hmin j hj)
      · right
        constructor
        · simp only [bytesFind]
          rw [if_neg (by simp [hp]), hr, if_neg (by decide)]
        · intro j hj
          cases j with
          | zero => rw [occurAt_zero] at hj; exact hp hj
          | succ j => rw [occurAt_cons_succ] at hj; exact hnone j hj

lemma sortU : sortByLenDesc U = [[13, 10], [10], [13]] := rfl

lemma isSuffixOf_char (a b : List Nat) : a.isSuffixOf b = true ↔ ∃ r, b = r ++ a := by
  rw [List.isSuffixOf_iff_suffix]
  constructor
  · rintro ⟨r, hr⟩; exact ⟨r, hr.symm⟩
  · rintro ⟨r, hr⟩; exact ⟨r, hr.symm⟩

lemma suffix_len_le (a b : List Nat) (h : a.isSuffixOf b = true) : a.length ≤ b.length := by
  rw [isSuffixOf_char] at h
  rcases h with ⟨r, rfl⟩
  simp

lemma remT_eq (l : List Nat) :
    remove_trailing_new_line l U = l.take (l.length - stripN l) := by
  unfold remove_trailing_new_line stripN
  rw [sortU]
  by_cases h1 : [13, 10].isSuffixOf l = true
  · simp [List.find?, h1]
  · by_cases h2 : [10].isSuffixOf l = true
    · simp [List.find?, h1, h2]
    · by_cases h3 : [13].isSuffixOf l = true
      · simp [List.find?, h1, h2, h3]
      · simp [List.find?, h1, h2, h3]

lemma stripN_le (l : List Nat) : stripN l ≤ l.length := by
  unfold stripN
  split_ifs with h1 h2 h3
  · exact suffix_len_le _ _ h1
  · exact suffix_len_le _ _ h2
  · exact suffix_len_le _ _ h3
  · omega

lemma remT_len (l : List Nat) :
    (remove_trailing_new_line l U).length = l.length - stripN l := by
  rw [remT_eq]
  simp [List.length_take]

/-- Decomposition of l into its stripped part and the stripped terminator. -/
lemma strip_decomp (l : List Nat) :
    l = remove_trailing_new_line l U ++ l.drop (l.length - stripN l) := by
  rw [remT_eq]
  exact (List.take_append_drop _ l).symm

lemma stripSuffix_cases (l : List Nat) :
    l.drop (l.length - stripN l) = [] ∧ stripN l = 0 ∨
    l.drop (l.length - stripN l) = [13, 10] ∧ stripN l = 2 ∨
    l.drop (l.length - stripN l) = [10] ∧ stripN l = 1 ∨
    l.drop (l.length - stripN l) = [13] ∧ stripN l = 1 := by
  unfold stripN
  split_ifs with h1 h2 h3
  · right; left
    rw [isSuffixOf_char] at h1
    rcases h1 with ⟨r, rfl⟩
    simp
  · right; right; left
    rw [isSuffixOf_char] at h2
    rcases h2 with ⟨r, rfl⟩
    simp
  · right; right; right
    rw [isSuffixOf_char] at h3
    rcases h3 with ⟨r, rfl⟩
    simp
  · left; simp

lemma ff_nil (t : List Nat) : find_furthest_new_line t [] = -1 := rfl

lemma ff_cons (t n : List Nat) (ns : List (List Nat)) :
    find_furthest_new_line t (n :: ns) =
      max (bytesRfind t n) (find_furthest_new_line t ns) := by
  simp [find_furthest_new_line]

/-- Characterization of _find_furthest_new_line: either it returns the
rightmost index at which some candidate terminator occurs, or -1 when no
candidate occurs at all. -/
theorem ff_cases (t : List Nat) (nls : List (List Nat)) :
    (∃ i : Nat, find_furthest_new_line t nls = (i : Int) ∧
      (∃ n ∈ nls, occurAt t n i) ∧
      ∀ n ∈ nls, ∀ j, occurAt t n j → j ≤ i) ∨
    (find_furthest_new_line t nls = -1 ∧ ∀ n ∈ nls, ∀ j, ¬ occurAt t n j) := by
  induction nls with
  | nil =>
    right
    exact ⟨ff_nil t, by simp⟩
  | cons n ns ih =>
    rcases bytesRfind_cases t n with ⟨i, hr, hocc, hmax⟩ | ⟨hr, hnone⟩
    · rcases ih with ⟨i', hf, ⟨m, hm, hocc'⟩, hmax'⟩ | ⟨hf, hnone'⟩
      · left
        refine ⟨max i i', ?_, ?_, ?_⟩
        · rw [ff_cons, hr, hf, Nat.cast_max]
        · rcases le_total i i' with h | h
          · exact ⟨m, by simp [hm], by rwa [max_eq_right h]⟩
          · exact ⟨n, by simp, by rwa [max_eq_left h]⟩
        · intro m' hm' j hj
          rcases List.mem_cons.mp hm' with rfl | hmem
          · exact le_trans (hmax j hj) (le_max_left _ _)
          · exact le_trans (hmax' m' hmem j hj) (le_max_right _ _)
      · left
        refine ⟨i, ?_, ⟨n, by simp, hocc⟩, ?_⟩
        · rw [ff_cons, hr, hf]
          rw [max_eq_left (show (-1 : Int) ≤ (i : Int) by omega)]
        · intro m' hm' j hj
          rcases List.mem_cons.mp hm' with rfl | hmem
          · exact hmax j hj
          · exact absurd hj (hnone' m' hmem j)
    · rcases ih with ⟨i', hf, ⟨m, hm, hocc'⟩, hmax'⟩ | ⟨hf, hnone'⟩
      · left
        refine ⟨i', ?_, ⟨m, by simp [hm], hocc'⟩, ?_⟩
        · rw [ff_cons, hr, hf]
          rw [max_eq_right (show (-1 : Int) ≤ (i' : Int) by omega)]
        · intro m' hm' j hj
          rcases List.mem_cons.mp hm' with rfl | hmem
          · exact absurd hj (hnone j)
          · exact hmax' m' hmem j hj
      · right
        constructor
        · rw [ff_cons, hr, hf]; decide
        · intro m' hm' j
          rcases List.mem_cons.mp hm' with rfl | hmem
          · exact hnone j
          · exact hnone' m' hmem j

/-- Characterization of _is_partially_read_new_line: b is found in some
candidate terminator at an index of at least 1, i.e. it occurs there but its
first occurrence is not at index 0. -/
theorem is_partly_char (b : List Nat) (nls : List (List Nat)) :
    is_partly_read_new_line b nls = true ↔
      ∃ n ∈ nls, (∃ k, 1 ≤ k ∧ occurAt n b k) ∧ ¬ occurAt n b 0 := by
  unfold is_partly_read_new_line
  rw [List.any_eq_true]
  constructor
  · rintro ⟨n, hn, hb⟩
    rw [decide_eq_true_eq] at hb
    refine ⟨n, hn, ?_⟩
    rcases bytesFind_cases n b with ⟨i, hf, hocc, hmin⟩ | ⟨hf, hnone⟩
    · rw [hf] at hb
      have hi : 1 ≤ i := by exact_mod_cast hb
      refine ⟨⟨i, hi, hocc⟩, fun h0 => ?_⟩
      have := hmin 0 h0
      omega
    · rw [hf] at hb
      exact absurd hb (by decide)
  · rintro ⟨n, hn, ⟨k, hk, hocc⟩, hn0⟩
    refine ⟨n, hn, ?_⟩
    rw [decide_eq_true_eq]
    rcases bytesFind_cases n b with ⟨i, hf, hocci, hmin⟩ | ⟨hf, hnone⟩
    · rw [hf]
      have : i ≠ 0 := fun h => hn0 (h ▸ hocci)
      exact_mod_cast Nat.one_le_iff_ne_zero.mpr this
    · exact absurd hocc (hnone k)

/-- With the default utf-8 terminator set, the only byte string that counts
as a partly read new line is the single byte 10: the second byte of 13-10. -/
theorem is_partly_U (b : List Nat) :
    is_partly_read_new_line b U = true ↔ b = [10] := by
  rw [is_partly_char]
  constructor
  · rintro ⟨n, hn, ⟨k, hk1, hocc⟩, hn0⟩
    simp only [U, new_lines_bytes_utf8, List.mem_cons, List.not_mem_nil, or_false] at hn
    rcases hn with rfl | rfl | rfl
    · rcases hocc with ⟨hlen, htake⟩
      simp only [List.length_cons, List.length_nil] at hlen
      have hb1 : b.length = 1 := by
        rcases Nat.eq_zero_or_pos b.length with h0 | h1
        · exfalso
          rw [List.length_eq_zero] at h0
          subst h0
          exact hn0 ⟨by simp, by simp⟩
        · omega
      have hk : k = 1 := by omega
      subst hk
      rw [hb1] at htake
      simpa using htake.symm
    · rcases hocc with ⟨hlen, _⟩
      simp only [List.length_cons, List.length_nil] at hlen
      have h0 : b.length = 0 := by omega
      rw [List.length_eq_zero] at h0
      subst h0
      exact absurd ⟨by simp, by simp⟩ hn0
    · rcases hocc with ⟨hlen, _⟩
      simp only [List.length_cons, List.length_nil] at hlen
      have h0 : b.length = 0 := by omega
      rw [List.length_eq_zero] at h0
      subst h0
      exact absurd ⟨by simp, by simp⟩ hn0
  · rintro rfl
    exact ⟨[13, 10], by simp [U, new_lines_bytes_utf8], ⟨1, le_refl 1, by decide⟩, by decide⟩

/-! Slice toolkit: relating buffer contents to file positions. -/

lemma slice_self (fp : List Nat) (a : Nat) : slice fp a a = [] := by
  simp [slice]

lemma slice_length (fp : List Nat) (a b : Nat) (hb : b ≤ fp.length) :
    (slice fp a b).length = b - a := by
  simp only [slice, List.length_take, List.length_drop]
  omega

lemma take_eq_slice (fp : List Nat) (b : Nat) : fp.take b = slice fp 0 b := by
  simp [slice]

lemma slice_drop (fp : List Nat) (a b k : Nat) :
    (slice fp a b).drop k = slice fp (a + k) b := by
  unfold slice
  rw [List.drop_take, List.drop_drop]
  have h2 : b - a - k = b - (a + k) := by omega
  rw [h2]

lemma slice_take (fp : List Nat) (a b k : Nat) (h : a + k ≤ b) :
    (slice fp a b).take k = slice fp a (a + k) := by
  unfold slice
  rw [List.take_take]
  congr 1
  omega

lemma slice_append (fp : List Nat) (a b c : Nat) (hab : a ≤ b) (hbc : b ≤ c) :
    slice fp a b ++ slice fp b c = slice fp a c := by
  unfold slice
  have hb : fp.drop b = (fp.drop a).drop (b - a) := by
    rw [List.drop_drop]; congr 1; omega
  rw [hb, ← List.take_add]
  congr 1
  omega

lemma drop_take_eq_slice (fp : List Nat) (b k : Nat) :
    (fp.take b).drop k = slice fp k b := by
  rw [take_eq_slice, slice_drop]
  simp

lemma take_take_eq_take (fp : List Nat) (b k : Nat) (h : k ≤ b) :
    (fp.take b).take k = fp.take k := by
  rw [List.take_take, min_eq_left h]

/-- Occurrences inside a buffer slice are occurrences inside the file prefix,
shifted by the left edge of the slice. -/
lemma occur_shift (fp : List Nat) (n : List Nat) (p E j : Nat)
    (hpE : p ≤ E) (hE : E ≤ fp.length) :
    occurAt (slice fp p E) n j ↔ occurAt (fp.take E) n (p + j) := by
  unfold occurAt
  rw [slice_length fp p E hE, List.length_take, min_eq_left hE]
  have key : ((slice fp p E).drop j).take n.length =
      ((fp.take E).drop (p + j)).take n.length := by
    rw [slice_drop, drop_take_eq_slice]
  constructor
  · rintro ⟨h1, h2⟩
    exact ⟨by omega, by rw [← key]; exact h2⟩
  · rintro ⟨h1, h2⟩
    exact ⟨by omega, by rw [key]; exact h2⟩

lemma slice_getD (fp : List Nat) (a b i : Nat) (h : a + i < b) :
    (slice fp a b).getD i 0 = fp.getD (a + i) 0 := by
  unfold slice
  have h1 : i < b - a := by omega
  have hgd : ∀ (l : List Nat) (k : Nat) (d : Nat), l.getD k d = (l.get? k).getD d :=
    fun _ _ _ => rfl
  rw [hgd, hgd, List.get?_take h1, List.get?_drop]

lemma bRead_one (fp : List Nat) (p : Nat) (h : p < fp.length) :
    bRead fp p 1 = [fp.getD p 0] := by
  unfold bRead
  rw [List.drop_eq_getElem_cons h, List.take_succ_cons, List.take_zero,
    List.getD_eq_getElem fp 0 h]

lemma bRead_past (fp : List Nat) (p n : Nat) (h : fp.length ≤ p) :
    bRead fp p n = [] := by
  unfold bRead
  rw [List.drop_eq_nil_of_le h]
  simp

/-- Suffix test on a slice, expressed through file positions: n is a suffix
of fp[a:b] exactly when it fits and equals the final n.length bytes. -/
lemma suffix_slice_iff (fp n : List Nat) (a b : Nat) (hab : a ≤ b) (hb : b ≤ fp.length) :
    n.isSuffixOf (slice fp a b) = true ↔
      n.length ≤ b - a ∧ slice fp (b - n.length) b = n := by
  rw [isSuffixOf_char]
  constructor
  · rintro ⟨r, hr⟩
    have hlen := congrArg List.length hr
    rw [slice_length fp a b hb, List.length_append] at hlen
    have h1 : n.length ≤ b - a := by omega
    refine ⟨h1, ?_⟩
    have hdrop : (slice fp a b).drop r.length = n := by
      rw [hr, List.drop_left]
    rw [slice_drop] at hdrop
    have : a + r.length = b - n.length := by omega
    rwa [this] at hdrop
  · rintro ⟨h1, h2⟩
    refine ⟨slice fp a (b - n.length), ?_⟩
    have hap := slice_append fp a (b - n.length) b (by omega) (by omega)
    rw [h2] at hap
    exact hap.symm

/-- Slice of width one is the byte at its left edge. -/
lemma slice_single (fp : List Nat) (a : Nat) (h : a < fp.length) :
    slice fp a (a + 1) = [fp.getD a 0] := by
  unfold slice
  have h1 : a + 1 - a = 1 := by omega
  rw [h1]
  exact bRead_one fp a h

/-- Slice of width two is the pair of bytes at its edges. -/
lemma slice_two (fp : List Nat) (c : Nat) (h : c + 1 < fp.length) :
    slice fp c (c + 2) = [fp.getD c 0, fp.getD (c + 1) 0] := by
  have hap := slice_append fp c (c + 1) (c + 2) (by omega) (by omega)
  rw [show c + 2 = (c + 1) + 1 by omega] at hap
  rw [slice_single fp c (by omega), slice_single fp (c + 1) h] at hap
  rw [show (c + 1) + 1 = c + 2 by omega] at hap
  simpa using hap.symm

/-- Two-byte suffix test on a slice in terms of the last two file bytes. -/
lemma suffix2_slice_iff (fp : List Nat) (x y a b : Nat) (hab : a ≤ b) (hb : b ≤ fp.length) :
    [x, y].isSuffixOf (slice fp a b) = true ↔
      a + 2 ≤ b ∧ fp.getD (b - 2) 0 = x ∧ fp.getD (b - 1) 0 = y := by
  rw [suffix_slice_iff fp [x, y] a b hab hb]
  have hL : ([x, y] : List Nat).length = 2 := rfl
  rw [hL]
  constructor
  · rintro ⟨h1, h2⟩
    have hb2 : b - 2 + 2 ≤ b := by omega
    refine ⟨by omega, ?_, ?_⟩
    · have := congrArg (fun l => l.getD 0 0) h2
      simp only at this
      rw [slice_getD fp (b - 2) b 0 (by omega)] at this
      simpa using this
    · have := congrArg (fun l => l.getD 1 0) h2
      simp only at this
      rw [slice_getD fp (b - 2) b 1 (by omega)] at this
      have he : b - 2 + 1 = b - 1 := by omega
      rw [he] at this
      simpa using this
  · rintro ⟨h1, hx, hy⟩
    refine ⟨by omega, ?_⟩
    have h2 := slice_two fp (b - 2) (by omega)
    rw [show b - 2 + 2 = b by omega, show b - 2 + 1 = b - 1 by omega] at h2
    rw [h2, hx, hy]

/-- One-byte suffix test on a slice in terms of the last file byte. -/
lemma suffix1_slice_iff (fp : List Nat) (x a b : Nat) (hab : a ≤ b) (hb : b ≤ fp.length) :
    [x].isSuffixOf (slice fp a b) = true ↔
      a + 1 ≤ b ∧ fp.getD (b - 1) 0 = x := by
  rw [suffix_slice_iff fp [x] a b hab hb]
  have hL : ([x] : List Nat).length = 1 := rfl
  rw [hL]
  constructor
  · rintro ⟨h1, h2⟩
    refine ⟨by omega, ?_⟩
    have := congrArg (fun l => l.getD 0 0) h2
    simp only at this
    rw [slice_getD fp (b - 1) b 0 (by omega)] at this
    simpa using this
  · rintro ⟨h1, hx⟩
    refine ⟨by omega, ?_⟩
    have h2 := slice_single fp (b - 1) (by omega)
    rw [show b - 1 + 1 = b by omega] at h2
    rw [h2, hx]

/-- Strip agreement: the length of the trailing terminator of the buffer
fp[p:E] equals that of the whole prefix fp[0:E], provided the read position
does not sit on the byte 10 of a split 13-10 terminator. -/
lemma stripN_slice_eq (fp : List Nat) (p E : Nat) (hpE : p < E) (hE : E ≤ fp.length)
    (hsplit : p = 0 ∨ fp.getD p 0 ≠ 10) :
    stripN (slice fp p E) = stripN (fp.take E) := by
  rw [take_eq_slice]
  have hc2 : ([13, 10].isSuffixOf (slice fp p E)) = ([13, 10].isSuffixOf (slice fp 0 E)) := by
    rw [Bool.eq_iff_iff,
      suffix2_slice_iff fp 13 10 p E (by omega) hE,
      suffix2_slice_iff fp 13 10 0 E (by omega) hE]
    constructor
    · rintro ⟨h1, hx, hy⟩; exact ⟨by omega, hx, hy⟩
    · rintro ⟨h1, hx, hy⟩
      refine ⟨?_, hx, hy⟩
      by_contra hlt
      have hp : p = E - 1 := by omega
      rcases hsplit with h0 | hne
      · omega
      · rw [hp] at hne; exact hne hy
  have hc10 : ([10].isSuffixOf (slice fp p E)) = ([10].isSuffixOf (slice fp 0 E)) := by
    rw [Bool.eq_iff_iff,
      suffix1_slice_iff fp 10 p E (by omega) hE,
      suffix1_slice_iff fp 10 0 E (by omega) hE]
    constructor
    · rintro ⟨h1, hx⟩; exact ⟨by omega, hx⟩
    · rintro ⟨h1, hx⟩; exact ⟨by omega, hx⟩
  have hc13 : ([13].isSuffixOf (slice fp p E)) = ([13].isSuffixOf (slice fp 0 E)) := by
    rw [Bool.eq_iff_iff,
      suffix1_slice_iff fp 13 p E (by omega) hE,
      suffix1_slice_iff fp 13 0 E (by omega) hE]
    constructor
    · rintro ⟨h1, hx⟩; exact ⟨by omega, hx⟩
    · rintro ⟨h1, hx⟩; exact ⟨by omega, hx⟩
  unfold stripN
  rw [hc2, hc10, hc13]

/-- Stripping the trailing terminator of the buffer fp[p:E] yields
fp[p:E - k] where k is the strip length of the whole prefix. -/
lemma remT_slice (fp : List Nat) (p E : Nat) (hpE : p < E) (hE : E ≤ fp.length)
    (hsplit : p = 0 ∨ fp.getD p 0 ≠ 10) :
    remove_trailing_new_line (slice fp p E) U =
      slice fp p (E - stripN (fp.take E)) := by
  rw [remT_eq, ← stripN_slice_eq fp p E hpE hE hsplit]
  rw [slice_length fp p E hE]
  have hk := stripN_le (slice fp p E)
  rw [slice_length fp p E hE] at hk
  rw [slice_take fp p E ((E - p) - stripN (slice fp p E)) (by omega)]
  congr 1
  omega

/-- Stripping the trailing terminator of the whole prefix fp[0:E]. -/
lemma remT_take (fp : List Nat) (E : Nat) (hE : E ≤ fp.length) :
    remove_trailing_new_line (fp.take E) U = fp.take (E - stripN (fp.take E)) := by
  rw [remT_eq]
  have hlen : (fp.take E).length = E := by
    rw [List.length_take, min_eq_left hE]
  rw [hlen, take_take_eq_take fp E (E - stripN (fp.take E)) (by omega)]

lemma slice_zero_take (fp : List Nat) (b : Nat) : slice fp 0 b = fp.take b :=
  (take_eq_slice fp b).symm

/-- Occurrence of a single byte. -/
lemma occ_single_iff (t : List Nat) (c j : Nat) :
    occurAt t [c] j ↔ j < t.length ∧ t.getD j 0 = c := by
  unfold occurAt
  simp only [List.length_cons, List.length_nil]
  constructor
  · rintro ⟨h1, h2⟩
    have hj : j < t.length := by omega
    rw [show (t.drop j).take (0 + 1) = bRead t j 1 from rfl, bRead_one t j hj] at h2
    simp only [List.cons.injEq, and_true] at h2
    exact ⟨hj, h2⟩
  · rintro ⟨h1, h2⟩
    refine ⟨by omega, ?_⟩
    rw [show (t.drop j).take (0 + 1) = bRead t j 1 from rfl, bRead_one t j h1, h2]

/-- The first byte of an occurrence. -/
lemma occ_head (t n : List Nat) (i : Nat) (hocc : occurAt t n i) (hn : 1 ≤ n.length) :
    t.getD i 0 = n.getD 0 0 ∧ i < t.length := by
  rcases hocc with ⟨h1, h2⟩
  have hi : i < t.length := by omega
  refine ⟨?_, hi⟩
  have := congrArg (fun l => l.getD 0 0) h2
  simp only at this
  rw [← this]
  have h3 : ∀ (l : List Nat) (k : Nat), 1 ≤ k → (l.take k).getD 0 0 = l.getD 0 0 := by
    intro l k hk
    have : ∀ (l' : List Nat) (k' : Nat) (d : Nat), l'.getD k' d = (l'.get? k').getD d :=
      fun _ _ _ => rfl
    rw [this, this, List.get?_take (by omega)]
  rw [h3 _ _ hn]
  have : ∀ (l' : List Nat) (k' j : Nat) (d : Nat), (l'.drop k').getD j d = l'.getD (k' + j) d := by
    intro l' k' j d
    have hg : ∀ (m : List Nat) (a : Nat) (d' : Nat), m.getD a d' = (m.get? a).getD d' :=
      fun _ _ _ => rfl
    rw [hg, hg, List.get?_drop]
  rw [this]
  simp

/-- An occurrence of some default terminator starts with a newline byte. -/
lemma occ_U_nl (t n : List Nat) (i : Nat) (hn : n ∈ U) (hocc : occurAt t n i) :
    isNl (t.getD i 0) = true ∧ i < t.length := by
  simp only [U, new_lines_bytes_utf8, List.mem_cons, List.not_mem_nil, or_false] at hn
  rcases hn with rfl | rfl | rfl
  · rcases occ_head t _ i hocc (by simp) with ⟨h1, h2⟩
    exact ⟨by rw [h1]; rfl, h2⟩
  · rcases occ_head t _ i hocc (by simp) with ⟨h1, h2⟩
    exact ⟨by rw [h1]; rfl, h2⟩
  · rcases occ_head t _ i hocc (by simp) with ⟨h1, h2⟩
    exact ⟨by rw [h1]; rfl, h2⟩

/-- A newline byte gives an occurrence of a default terminator. -/
lemma nl_byte_occ (t : List Nat) (j : Nat) (hj : j < t.length)
    (hnl : isNl (t.getD j 0) = true) : ∃ n ∈ U, occurAt t n j := by
  unfold isNl at hnl
  simp only [Bool.or_eq_true, beq_iff_eq] at hnl
  rcases hnl with h10 | h13
  · exact ⟨[10], by simp [U, new_lines_bytes_utf8], (occ_single_iff t 10 j).mpr ⟨hj, h10⟩⟩
  · exact ⟨[13], by simp [U, new_lines_bytes_utf8], (occ_single_iff t 13 j).mpr ⟨hj, h13⟩⟩

/-- Bridge for _find_furthest_new_line between a buffer slice fp[p:Et] and
the whole prefix fp[0:Et]: a hit shifts by p, and a miss with p = 0 is a
miss for the prefix. -/
lemma ff_slice_take (fp : List Nat) (p Et : Nat) (hp : p ≤ Et) (hEt : Et ≤ fp.length) :
    (∀ i : Nat, find_furthest_new_line (slice fp p Et) U = (i : Int) →
      find_furthest_new_line (fp.take Et) U = ((p + i : Nat) : Int)) := by
  intro i hi
  rcases ff_cases (slice fp p Et) U with ⟨i', hf, ⟨n, hn, hocc⟩, hmax⟩ | ⟨hf, hnone⟩
  · rw [hf] at hi
    have hii : i' = i := by exact_mod_cast hi
    subst hii
    have hocc' : occurAt (fp.take Et) n (p + i') :=
      (occur_shift fp n p Et i' hp hEt).mp hocc
    rcases ff_cases (fp.take Et) U with ⟨k, hfk, ⟨m, hm, hoccm⟩, hmaxk⟩ | ⟨hfk, hnonek⟩
    · have h1 : p + i' ≤ k := hmaxk n hn (p + i') hocc'
      have h2 : k ≤ p + i' := by
        by_cases hkp : p ≤ k
        · have : occurAt (slice fp p Et) m (k - p) := by
            have := (occur_shift fp m p Et (k - p) hp hEt).mpr
            rw [show p + (k - p) = k by omega] at this
            exact this hoccm
          have := hmax m hm (k - p) this
          omega
        · omega
      have : k = p + i' := by omega
      rw [hfk, this]
    · exact absurd hocc' (hnonek n hn (p + i'))
  · rw [hf] at hi
    exact absurd hi (by omega)

/-- Everything strictly after the furthest newline is newline-free. -/
lemma after_ff_no_nl (t : List Nat) (i : Nat)
    (hmax : ∀ n ∈ U, ∀ j, occurAt t n j → j ≤ i) :
    ∀ c ∈ t.drop (i + 1), isNl c = false := by
  intro c hc
  obtain ⟨j, hj, he⟩ := List.mem_iff_getElem.mp hc
  rw [List.getElem_drop] at he
  by_contra hnl
  rw [Bool.not_eq_false] at hnl
  have hlen : i + 1 + j < t.length := by
    have := List.length_drop (i + 1) t
    omega
  have hd : t.getD (i + 1 + j) 0 = c := by
    rw [List.getD_eq_getElem t 0 hlen, he]
  obtain ⟨n, hn, hocc⟩ := nl_byte_occ t (i + 1 + j) hlen (by rw [hd]; exact hnl)
  have := hmax n hn _ hocc
  omega

/-- When no terminator occurs, the whole byte string is newline-free. -/
lemma none_ff_no_nl (t : List Nat)
    (hnone : ∀ n ∈ U, ∀ j, ¬ occurAt t n j) :
    ∀ c ∈ t, isNl c = false := by
  intro c hc
  obtain ⟨j, hj, he⟩ := List.mem_iff_getElem.mp hc
  by_contra hnl
  rw [Bool.not_eq_false] at hnl
  have hd : t.getD j 0 = c := by rw [List.getD_eq_getElem t 0 hj, he]
  obtain ⟨n, hn, hocc⟩ := nl_byte_occ t j hj (by rw [hd]; exact hnl)
  exact hnone n hn j hocc

/-- A newline-free byte string has no terminator suffix. -/
lemma noNl_no_suffix (l : List Nat) (h : ∀ c ∈ l, isNl c = false) :
    ∀ n ∈ U, n.isSuffixOf l = false := by
  intro n hn
  rw [Bool.eq_false_iff]
  intro hsuf
  rw [isSuffixOf_char] at hsuf
  obtain ⟨r, rfl⟩ := hsuf
  simp only [U, new_lines_bytes_utf8, List.mem_cons, List.not_mem_nil, or_false] at hn
  rcases hn with rfl | rfl | rfl
  · exact absurd (h 13 (by simp)) (by decide)
  · exact absurd (h 10 (by simp)) (by decide)
  · exact absurd (h 13 (by simp)) (by decide)

/-- A nonempty prefix ending in a newline byte has positive strip length. -/
lemma stripN_pos_last (fp : List Nat) (E : Nat) (h1 : 1 ≤ E) (hE : E ≤ fp.length)
    (hnl : isNl (fp.getD (E - 1) 0) = true) : 1 ≤ stripN (fp.take E) := by
  rw [take_eq_slice]
  unfold isNl at hnl
  simp only [Bool.or_eq_true, beq_iff_eq] at hnl
  unfold stripN
  split_ifs with hc2 hc10 hc13
  · omega
  · omega
  · omega
  · exfalso
    rcases hnl with h10 | h13
    · rw [suffix1_slice_iff fp 10 0 E (by omega) hE] at hc10
      exact hc10 ⟨by omega, h10⟩
    · rw [suffix1_slice_iff fp 13 0 E (by omega) hE] at hc13
      exact hc13 ⟨by omega, h13⟩

/-- Strict decrease of the boundary: the furthest newline of the stripped
prefix sits strictly before position E - 1. -/
lemma spec_dec (fp : List Nat) (E i : Nat) (h1 : 1 ≤ E) (hE : E ≤ fp.length)
    (hff : find_furthest_new_line (remove_trailing_new_line (fp.take E) U) U = (i : Int)) :
    i + 1 < E := by
  set k := stripN (fp.take E) with hk
  rw [remT_take fp E hE] at hff
  rcases ff_cases (fp.take (E - k)) U with ⟨i', hf, ⟨n, hn, hocc⟩, hmax⟩ | ⟨hf, hnone⟩
  · rw [hf] at hff
    have hii : i' = i := by exact_mod_cast hff
    subst hii
    have hlen : i' < (fp.take (E - k)).length := (occ_U_nl _ n i' hn hocc).2
    rw [List.length_take] at hlen
    rcases Nat.eq_zero_or_pos k with hk0 | hkpos
    · by_contra hcon
      have hiE : i' + 1 = E := by omega
      have hnl : isNl ((fp.take (E - k)).getD i' 0) = true := (occ_U_nl _ n i' hn hocc).1
      have hgd : (fp.take (E - k)).getD i' 0 = fp.getD i' 0 := by
        rw [take_eq_slice, slice_getD fp 0 (E - k) i' (by omega)]
        simp
      have : 1 ≤ k := by
        apply stripN_pos_last fp E h1 hE
        rw [show E - 1 = i' by omega]
        rw [hgd] at hnl
        exact hnl
      omega
    · omega
  · rw [hf] at hff
    exact absurd hff (by omega)

/-! Properties of the next-read computation and of the fill loop. -/

lemma seekWalk_le (fp : List Nat) (nls : List (List Nat)) :
    ∀ (s rs : Nat), (seekWalk fp nls s rs).1 ≤ s := by
  intro s
  induction s with
  | zero => intro rs; simp [seekWalk]
  | succ s ih =>
    intro rs
    unfold seekWalk
    split
    · exact le_trans (ih (rs + 1)) (by omega)
    · simp

lemma seekWalk_rs (fp : List Nat) (nls : List (List Nat)) :
    ∀ (s rs : Nat), (seekWalk fp nls s rs).2 = rs + (s - (seekWalk fp nls s rs).1) := by
  intro s
  induction s with
  | zero => intro rs; simp [seekWalk]
  | succ s ih =>
    intro rs
    unfold seekWalk
    split
    · have h1 := ih (rs + 1)
      have h2 := seekWalk_le fp nls s (rs + 1)
      omega
    · simp

lemma seekWalk_post (fp : List Nat) (nls : List (List Nat)) :
    ∀ (s rs : Nat), (seekWalk fp nls s rs).1 = 0 ∨
      is_partly_read_new_line (bRead fp (seekWalk fp nls s rs).1 1) nls = false := by
  intro s
  induction s with
  | zero => intro rs; left; simp [seekWalk]
  | succ s ih =>
    intro rs
    unfold seekWalk
    split
    · exact ih (rs + 1)
    · right
      simpa using (by assumption : ¬ _ = true)

lemma seekWalk_succ (fp : List Nat) (nls : List (List Nat)) (s rs : Nat) :
    seekWalk fp nls (s + 1) rs =
      if is_partly_read_new_line (bRead fp (s + 1) 1) nls then
        seekWalk fp nls s (rs + 1)
      else (s + 1, rs) := rfl

lemma seekWalk_between (fp : List Nat) (nls : List (List Nat)) :
    ∀ (s rs q : Nat), (seekWalk fp nls s rs).1 < q → q ≤ s →
      is_partly_read_new_line (bRead fp q 1) nls = true := by
  intro s
  induction s with
  | zero => intro rs q h1 h2; omega
  | succ s ih =>
    intro rs q h1 h2
    by_cases hc : is_partly_read_new_line (bRead fp (s + 1) 1) nls = true
    · rw [seekWalk_succ, if_pos hc] at h1
      rcases Nat.lt_or_ge q (s + 1) with hq | hq
      · exact ih (rs + 1) q h1 (by omega)
      · have : q = s + 1 := by omega
        rw [this]
        exact hc
    · rw [seekWalk_succ, if_neg hc] at h1
      simp at h1
      omega

lemma gwtrn_seek_le (fp : List Nat) (prev c : Nat) (nls : List (List Nat)) :
    (get_what_to_read_next fp prev c nls).1 ≤ prev - c := by
  unfold get_what_to_read_next
  exact seekWalk_le fp nls (prev - c) c

/-- The clamped read size always equals exactly the gap between the chosen
seek position and the previous read position. -/
lemma gwtrn_rs (fp : List Nat) (prev c : Nat) (nls : List (List Nat)) :
    (get_what_to_read_next fp prev c nls).2 =
      prev - (get_what_to_read_next fp prev c nls).1 := by
  unfold get_what_to_read_next
  simp only
  have h1 := seekWalk_rs fp nls (prev - c) c
  have h2 := seekWalk_le fp nls (prev - c) c
  omega

lemma gwtrn_dec (fp : List Nat) (prev c : Nat) (nls : List (List Nat))
    (hc : 1 ≤ c) (hp : 1 ≤ prev) :
    (get_what_to_read_next fp prev c nls).1 < prev := by
  have := gwtrn_seek_le fp prev c nls
  omega

/-- With the default terminator set the chosen seek position is 0 or does
not sit on a byte 10. -/
lemma gwtrn_notSplit (fp : List Nat) (prev c : Nat) :
    (get_what_to_read_next fp prev c U).1 = 0 ∨
      fp.getD (get_what_to_read_next fp prev c U).1 0 ≠ 10 := by
  have hpost := seekWalk_post fp U (prev - c) c
  unfold get_what_to_read_next
  simp only
  rcases hpost with h0 | hnp
  · left; exact h0
  · right
    intro h10
    set q := (seekWalk fp U (prev - c) c).1 with hq
    rcases Nat.lt_or_ge q fp.length with hlt | hge
    · rw [bRead_one fp q hlt, h10] at hnp
      rw [show is_partly_read_new_line [10] U = true from by decide] at hnp
      exact Bool.true_eq_false.mp hnp
    · rw [List.getD_eq_default fp 0 hge] at h10
      omega

/-- One chunk read and merge preserves the buffer invariant and strictly
decreases the read position. -/
lemma fill_one_step (fp : List Nat) (E : Nat) (s : BufferWorkSpace)
    (hInv : Inv fp E s) (hpos : 0 < s.read_position) :
    Inv fp E (s.add_to_buffer
        (get_next_chunk s.fp s.read_position s.chunk_size s.new_lines_bytes).1
        (get_next_chunk s.fp s.read_position s.chunk_size s.new_lines_bytes).2) ∧
      (s.add_to_buffer
        (get_next_chunk s.fp s.read_position s.chunk_size s.new_lines_bytes).1
        (get_next_chunk s.fp s.read_position s.chunk_size s.new_lines_bytes).2).read_position
        < s.read_position := by
  obtain ⟨hfp, hnls, hc, hE, hpE, hns, hbuf⟩ := hInv
  set prev := s.read_position with hprev
  set seek := (get_what_to_read_next fp prev s.chunk_size U).1 with hseek
  have hrs := gwtrn_rs fp prev s.chunk_size U
  have hdec : seek < prev := gwtrn_dec fp prev s.chunk_size U hc hpos
  have hcontent : (get_next_chunk s.fp prev s.chunk_size s.new_lines_bytes).1 =
      slice fp seek prev := by
    unfold get_next_chunk
    rw [hfp, hnls]
    simp only
    rw [hrs]
    rfl
  have hpos2 : (get_next_chunk s.fp prev s.chunk_size s.new_lines_bytes).2 = seek := by
    unfold get_next_chunk
    rw [hfp, hnls]
  constructor
  · refine ⟨by simp [BufferWorkSpace.add_to_buffer, hfp],
      by simp [BufferWorkSpace.add_to_buffer, hnls],
      by simp [BufferWorkSpace.add_to_buffer, hc],
      hE, ?_, ?_, ?_⟩
    · simp only [BufferWorkSpace.add_to_buffer, hpos2]
      omega
    · simp only [BufferWorkSpace.add_to_buffer, hpos2]
      exact gwtrn_notSplit fp prev s.chunk_size
    · right
      rcases hbuf with ⟨hnone, hposE⟩ | ⟨hsome, hlt⟩
      · constructor
        · simp only [BufferWorkSpace.add_to_buffer, hpos2, hcontent, hnone]
          rw [← hposE]
        · simp only [BufferWorkSpace.add_to_buffer, hpos2]
          omega
      · constructor
        · simp only [BufferWorkSpace.add_to_buffer, hpos2, hcontent, hsome]
          rw [slice_append fp seek prev E (by omega) hpE]
        · simp only [BufferWorkSpace.add_to_buffer, hpos2]
          omega
  · simp only [BufferWorkSpace.add_to_buffer, hpos2]
    exact hdec

lemma yieldable_pos0_some (s : BufferWorkSpace) (b : List Nat)
    (hb : s.read_buffer = some b) (hp : s.read_position = 0) :
    s.yieldable = true := by
  unfold BufferWorkSpace.yieldable
  rw [hb]
  simp only [hp]
  split
  · rfl
  · rfl

lemma yieldable_none (s : BufferWorkSpace) (hb : s.read_buffer = none) :
    s.yieldable = false := by
  unfold BufferWorkSpace.yieldable
  rw [hb]

lemma hrel_false_of_some (s : BufferWorkSpace) (b : List Nat)
    (hb : s.read_buffer = some b) :
    s.has_returned_every_line = false := by
  unfold BufferWorkSpace.has_returned_every_line
  rw [hb]
  simp

lemma hrel_add (s : BufferWorkSpace) (c : List Nat) (q : Nat) :
    (s.add_to_buffer c q).has_returned_every_line = false := by
  unfold BufferWorkSpace.has_returned_every_line BufferWorkSpace.add_to_buffer
  simp

lemma ruy_of_yieldable (s : BufferWorkSpace) (hy : s.yieldable = true) :
    ∀ f, read_until_yieldable_fuel f s = some s := by
  intro f
  cases f with
  | zero => simp [read_until_yieldable_fuel, hy]
  | succ f => simp [read_until_yieldable_fuel, hy]

/-- Termination with explicit fuel: starting from any invariant state that is
not yet exhausted, the fill loop reaches a yieldable state using at most
read_position + 2 rounds, never increasing the read position. -/
lemma fill_total (p : Nat) : ∀ (s : BufferWorkSpace) (fp : List Nat) (E : Nat),
    Inv fp E s → s.read_position ≤ p → s.has_returned_every_line = false →
    ∃ s', read_until_yieldable_fuel (p + 2) s = some s' ∧ s'.yieldable = true ∧
      Inv fp E s' ∧ s'.read_position ≤ s.read_position := by
  induction p using Nat.strong_induction_on with
  | _ p ih =>
    intro s fp E hInv hle hret
    by_cases hy : s.yieldable = true
    · exact ⟨s, ruy_of_yieldable s hy _, hy, hInv, le_refl _⟩
    · have hpos : 0 < s.read_position := by
        obtain ⟨hfp, hnls, hc, hE, hpE, hns, hbuf⟩ := hInv
        rcases hbuf with ⟨hnone, hposE⟩ | ⟨hsome, hlt⟩
        · rcases Nat.eq_zero_or_pos s.read_position with h0 | hgt
          · exfalso
            unfold BufferWorkSpace.has_returned_every_line at hret
            rw [hnone, h0] at hret
            simp at hret
          · exact hgt
        · rcases Nat.eq_zero_or_pos s.read_position with h0 | hgt
          · exact absurd (yieldable_pos0_some s _ hsome h0) hy
          · exact hgt
      obtain ⟨hInv1, hdec⟩ := fill_one_step fp E s hInv hpos
      set s1 := s.add_to_buffer
        (get_next_chunk s.fp s.read_position s.chunk_size s.new_lines_bytes).1
        (get_next_chunk s.fp s.read_position s.chunk_size s.new_lines_bytes).2 with hs1
      have hret1 : s1.has_returned_every_line = false := hrel_add s _ _
      have hp1 : 1 ≤ p := by omega
      have hle1 : s1.read_position ≤ p - 1 := by omega
      obtain ⟨s', hruy, hy', hInv', hmono⟩ := ih (p - 1) (by omega) s1 fp E hInv1 hle1 hret1
      refine ⟨s', ?_, hy', hInv', by omega⟩
      have hstep : read_until_yieldable_fuel (p + 2) s =
          read_until_yieldable_fuel (p + 1) s1 := by
        rw [show p + 2 = (p + 1) + 1 by omega]
        rw [show read_until_yieldable_fuel ((p + 1) + 1) s =
          if s.yieldable then some s else read_until_yieldable_fuel (p + 1)
            (s.add_to_buffer
              (get_next_chunk s.fp s.read_position s.chunk_size s.new_lines_bytes).1
              (get_next_chunk s.fp s.read_position s.chunk_size s.new_lines_bytes).2)
          from rfl]
        rw [if_neg hy]
      rw [hstep, show p + 1 = (p - 1) + 2 by omega]
      exact hruy

/-- Behaviour of return_line on an invariant state: it emits exactly the
line determined by the file prefix fp[0:E] and either moves the boundary to
just after the furthest newline or finishes the file. -/
lemma produce_step (fp : List Nat) (E : Nat) (s : BufferWorkSpace)
    (hInv : Inv fp E s) (hy : s.yieldable = true) (hEpos : 0 < E) :
    ∃ l s', s.return_line = some (l, s') ∧
      ((∃ i : Nat,
          find_furthest_new_line (remove_trailing_new_line (fp.take E) U) U = (i : Int) ∧
          l = (remove_trailing_new_line (fp.take E) U).drop (i + 1) ∧
          Inv fp (i + 1) s' ∧ i + 1 < E) ∨
       (find_furthest_new_line (remove_trailing_new_line (fp.take E) U) U = -1 ∧
          l = remove_trailing_new_line (fp.take E) U ∧
          s'.read_position = 0 ∧ s'.read_buffer = none ∧
          s'.has_returned_every_line = true)) := by
  obtain ⟨hfp, hnls, hc, hE, hpE, hns, hbuf⟩ := hInv
  rcases hbuf with ⟨hnone, _⟩ | ⟨hsome, hlt⟩
  · rw [yieldable_none s hnone] at hy
    exact absurd hy Bool.false_ne_true
  set pos := s.read_position with hposdef
  set k := stripN (fp.take E) with hk
  set Et := E - k with hEt
  have hkle : k ≤ E - pos := by
    rw [hk, ← stripN_slice_eq fp pos E hlt hE hns]
    have := stripN_le (slice fp pos E)
    rw [slice_length fp pos E hE] at this
    exact this
  have hposEt : pos ≤ Et := by omega
  have hEtlen : Et ≤ fp.length := by omega
  have htrun : remove_trailing_new_line (slice fp pos E) U = slice fp pos Et :=
    remT_slice fp pos E hlt hE hns
  have htspec : remove_trailing_new_line (fp.take E) U = fp.take Et :=
    remT_take fp E hE
  have hrl : s.return_line =
      (if 0 ≤ find_furthest_new_line (remove_trailing_new_line (slice fp pos E) U) U then
        some ((remove_trailing_new_line (slice fp pos E) U).drop
            ((find_furthest_new_line (remove_trailing_new_line (slice fp pos E) U) U).toNat + 1),
          { s with read_buffer := some ((remove_trailing_new_line (slice fp pos E) U).take
            ((find_furthest_new_line (remove_trailing_new_line (slice fp pos E) U) U).toNat + 1)) })
      else some (remove_trailing_new_line (slice fp pos E) U,
        { s with read_buffer := none })) := by
    unfold BufferWorkSpace.return_line
    rw [if_pos hy]
    simp only [hsome, hnls]
  rcases ff_cases (slice fp pos Et) U with ⟨ir, hf, ⟨n, hn, hocc⟩, hmax⟩ | ⟨hf, hnone⟩
  · have hfr : find_furthest_new_line (remove_trailing_new_line (slice fp pos E) U) U =
        (ir : Int) := by rw [htrun]; exact hf
    have hspecff : find_furthest_new_line (fp.take Et) U = ((pos + ir : Nat) : Int) :=
      ff_slice_take fp pos Et hposEt hEtlen ir (by rw [htrun] at hfr; exact hfr)
    have hirlt : ir < Et - pos := by
      have := (occ_U_nl (slice fp pos Et) n ir hn hocc).2
      rw [slice_length fp pos Et hEtlen] at this
      exact this
    have hdecE : (pos + ir) + 1 < E := by
      apply spec_dec fp E (pos + ir) (by omega) hE
      rw [htspec]
      exact hspecff
    set tk : List Nat :=
      (remove_trailing_new_line (slice fp pos E) U).take (ir + 1) with htk
    set s2 : BufferWorkSpace := { s with read_buffer := some tk } with hs2
    have hs2fp : s2.fp = s.fp := rfl
    have hs2pos : s2.read_position = s.read_position := rfl
    have hs2c : s2.chunk_size = s.chunk_size := rfl
    have hs2n : s2.new_lines_bytes = s.new_lines_bytes := rfl
    have hs2b : s2.read_buffer = some tk := rfl
    refine ⟨(remove_trailing_new_line (slice fp pos E) U).drop (ir + 1), s2, ?_, ?_⟩
    · rw [hrl, if_pos (by rw [hfr]; exact Int.ofNat_nonneg ir), hfr]
      simp only [Int.toNat_natCast, hs2, htk]
    · left
      refine ⟨pos + ir, by rw [htspec]; exact hspecff, ?_, ?_, hdecE⟩
      · rw [htspec, htrun, slice_drop, drop_take_eq_slice]
        rw [show pos + (ir + 1) = pos + ir + 1 from by omega]
      · refine ⟨by rw [hs2fp, hfp], by rw [hs2n, hnls], ?_, by omega, ?_, ?_, ?_⟩
        · rw [hs2c]; exact hc
        · rw [hs2pos]; omega
        · rw [hs2pos, hs2pos]; exact hns
        · right
          refine ⟨?_, by rw [hs2pos]; omega⟩
          rw [hs2b, htk, htrun, hs2pos]
          rw [slice_take fp pos Et (ir + 1) (by omega)]
          rw [show pos + (ir + 1) = pos + ir + 1 from by omega, ← hposdef]
  · have hfr : find_furthest_new_line (remove_trailing_new_line (slice fp pos E) U) U =
        -1 := by rw [htrun]; exact hf
    have hpos0 : pos = 0 := by
      by_contra hne
      have hyy := hy
      unfold BufferWorkSpace.yieldable at hyy
      rw [hsome] at hyy
      simp only [hnls] at hyy
      rw [hfr] at hyy
      rw [if_neg (by decide)] at hyy
      rw [if_neg (fun h => hne h)] at hyy
      exact Bool.false_ne_true hyy
    have htrun0 : slice fp pos Et = fp.take Et := by
      rw [hpos0]
      exact slice_zero_take fp Et
    set s3 : BufferWorkSpace := { s with read_buffer := none } with hs3
    have hs3pos : s3.read_position = s.read_position := rfl
    have hs3b : s3.read_buffer = none := rfl
    refine ⟨remove_trailing_new_line (slice fp pos E) U, s3, ?_, ?_⟩
    · rw [hrl, if_neg (by rw [hfr]; decide)]
    · right
      refine ⟨?_, ?_, by rw [hs3pos]; omega, hs3b, ?_⟩
      · rw [htspec, ← htrun0]
        exact hf
      · rw [htspec, htrun, htrun0]
      · unfold BufferWorkSpace.has_returned_every_line
        rw [hs3pos, hs3b]
        simp
        omega

lemma specLinesF_succ (f : Nat) (P : List Nat) :
    specLinesF (f + 1) P =
      if P.length = 0 then []
      else
        if 0 ≤ find_furthest_new_line (remove_trailing_new_line P U) U then
          (remove_trailing_new_line P U).drop
              ((find_furthest_new_line (remove_trailing_new_line P U) U).toNat + 1) ::
            specLinesF f ((remove_trailing_new_line P U).take
              ((find_furthest_new_line (remove_trailing_new_line P U) U).toNat + 1))
        else [remove_trailing_new_line P U] := rfl

/-- Position of the furthest newline hit, inside the stripped byte string. -/
lemma ff_hit_lt_len (t : List Nat) (i : Nat)
    (h : find_furthest_new_line t U = (i : Int)) : i < t.length := by
  rcases ff_cases t U with ⟨i', hf, ⟨n, hn, hocc⟩, _⟩ | ⟨hf, _⟩
  · rw [hf] at h
    have : i' = i := by exact_mod_cast h
    subst this
    exact (occ_U_nl t n i' hn hocc).2
  · rw [hf] at h
    exact absurd h (by omega)

/-- The returned lines do not depend on the fuel once it exceeds the length
of the prefix. -/
lemma specLinesF_irrel (L : Nat) : ∀ (P : List Nat), P.length ≤ L →
    ∀ f g, P.length < f → P.length < g → specLinesF f P = specLinesF g P := by
  induction L using Nat.strong_induction_on with
  | _ L ih =>
    intro P hPL f g hf hg
    obtain ⟨f', rfl⟩ : ∃ f', f = f' + 1 := ⟨f - 1, by omega⟩
    obtain ⟨g', rfl⟩ : ∃ g', g = g' + 1 := ⟨g - 1, by omega⟩
    rw [specLinesF_succ, specLinesF_succ]
    by_cases hP : P.length = 0
    · rw [if_pos hP, if_pos hP]
    · rw [if_neg hP, if_neg hP]
      set t := remove_trailing_new_line P U with ht
      set n := find_furthest_new_line t U with hn
      by_cases hpos : 0 ≤ n
      · rw [if_pos hpos, if_pos hpos]
        have hofn : n = ((n.toNat : Nat) : Int) := (Int.toNat_of_nonneg hpos).symm
        have hlt : n.toNat < t.length := ff_hit_lt_len t n.toNat (by rw [← hofn])
        have hdec : n.toNat + 1 < P.length := by
          apply spec_dec P P.length n.toNat (by omega) (le_refl _)
          rw [List.take_length, ← ht, ← hn, ← hofn]
        have hlen : (t.take (n.toNat + 1)).length ≤ n.toNat + 1 := by
          rw [List.length_take]
          omega
        congr 1
        apply ih (L - 1) (by omega)
        · omega
        · omega
        · omega
      · rw [if_neg hpos, if_neg hpos]

lemma runAllF_succ (f : Nat) (s : BufferWorkSpace) :
    runAllF (f + 1) s =
      if s.has_returned_every_line then some ([], s)
      else
        match read_until_yieldable_fuel (s.read_position + 2) s with
        | none => none
        | some s1 =>
          match s1.return_line with
          | none => none
          | some ls2 =>
            match runAllF f ls2.2 with
            | none => none
            | some r => some (ls2.1 :: r.1, r.2) := rfl

lemma runAllF_hret (f : Nat) (s : BufferWorkSpace)
    (h : s.has_returned_every_line = true) : runAllF f s = some ([], s) := by
  cases f with
  | zero => simp [runAllF, h]
  | succ f => rw [runAllF_succ, if_pos h]

lemma hret_char (s : BufferWorkSpace) :
    s.has_returned_every_line = true ↔
      s.read_position = 0 ∧ s.read_buffer = none := by
  unfold BufferWorkSpace.has_returned_every_line
  rw [Bool.and_eq_true, decide_eq_true_eq, Option.isNone_iff_eq_none]

/-- Main correctness of the backward iteration: from any invariant state
with boundary E, the driver returns exactly the lines of the prefix fp[0:E]
computed by the pure reference function, ending exhausted. -/
theorem runAllF_correct (E : Nat) : ∀ (fp : List Nat) (s : BufferWorkSpace) (fuel : Nat),
    Inv fp E s → E < fuel →
    ∃ s', runAllF fuel s = some (specLinesF (E + 1) (fp.take E), s') ∧
      s'.read_position = 0 ∧ s'.read_buffer = none := by
  induction E using Nat.strong_induction_on with
  | _ E ih =>
    intro fp s fuel hInv hfuel
    by_cases hret : s.has_returned_every_line = true
    · obtain ⟨hpos0, hnone⟩ := (hret_char s).mp hret
      obtain ⟨hfp, hnls, hc, hE, hpE, hns, hbuf⟩ := hInv
      have hE0 : E = 0 := by
        rcases hbuf with ⟨_, hposE⟩ | ⟨hsome, _⟩
        · omega
        · rw [hnone] at hsome; exact absurd hsome (by simp)
      subst hE0
      refine ⟨s, ?_, hpos0, hnone⟩
      rw [runAllF_hret fuel s hret]
      rfl
    · have hE0 : 0 < E := by
        by_contra h0
        obtain ⟨hfp, hnls, hc, hE, hpE, hns, hbuf⟩ := hInv
        have : E = 0 := by omega
        subst this
        rcases hbuf with ⟨hnone, hposE⟩ | ⟨_, hlt⟩
        · exact hret ((hret_char s).mpr ⟨by omega, hnone⟩)
        · omega
      have hretf : s.has_returned_every_line = false := by
        revert hret; cases s.has_returned_every_line <;> simp
      obtain ⟨s1, hruy, hy1, hInv1, _⟩ :=
        fill_total s.read_position s fp E hInv (le_refl _) hretf
      obtain ⟨l, s2, hrl2, hcase⟩ := produce_step fp E s1 hInv1 hy1 hE0
      obtain ⟨f, rfl⟩ : ∃ f, fuel = f + 1 := ⟨fuel - 1, by omega⟩
      rcases hcase with ⟨i, hffspec, hl, hInv2, hiE⟩ | ⟨hffspec, hl, hp2, hb2, hret2⟩
      · obtain ⟨s3, hrec, hp3, hb3⟩ := ih (i + 1) (by omega) fp s2 f hInv2 (by omega)
        refine ⟨s3, ?_, hp3, hb3⟩
        rw [runAllF_succ, if_neg (by rw [hretf]; exact Bool.false_ne_true)]
        rw [hruy]
        simp only [hrl2, hrec]
        have hgoal : specLinesF (E + 1) (fp.take E) =
            l :: specLinesF (i + 1 + 1) (fp.take (i + 1)) := by
          rw [specLinesF_succ]
          have hlenE : (fp.take E).length = E := by
            obtain ⟨_, _, _, hE, _, _, _⟩ := hInv
            rw [List.length_take, min_eq_left hE]
          rw [if_neg (by omega)]
          rw [if_pos (by rw [hffspec]; exact Int.ofNat_nonneg i)]
          rw [hffspec]
          simp only [Int.toNat_natCast]
          rw [← hl]
          congr 1
          have hE' : E ≤ fp.length := by
            obtain ⟨_, _, _, hE, _, _, _⟩ := hInv
            exact hE
          have htspec := remT_take fp E hE'
          have hi1 : i + 1 ≤ E - stripN (fp.take E) := by
            have := ff_hit_lt_len (remove_trailing_new_line (fp.take E) U) i hffspec
            rw [htspec, List.length_take, min_eq_left (by omega)] at this
            omega
          have htake : (remove_trailing_new_line (fp.take E) U).take (i + 1) =
              fp.take (i + 1) := by
            rw [htspec, take_take_eq_take fp (E - stripN (fp.take E)) (i + 1) hi1]
          rw [htake]
          apply specLinesF_irrel (i + 1)
          · rw [List.length_take]; omega
          · rw [List.length_take, min_eq_left (by omega)]; omega
          · rw [List.length_take, min_eq_left (by omega)]; omega
        rw [hgoal]
      · refine ⟨s2, ?_, hp2, hb2⟩
        rw [runAllF_succ, if_neg (by rw [hretf]; exact Bool.false_ne_true)]
        rw [hruy]
        simp only [hrl2, runAllF_hret f s2 hret2]
        have hgoal : specLinesF (E + 1) (fp.take E) = [l] := by
          rw [specLinesF_succ]
          have hlenE : (fp.take E).length = E := by
            obtain ⟨_, _, _, hE, _, _, _⟩ := hInv
            rw [List.length_take, min_eq_left hE]
          rw [if_neg (by omega)]
          rw [if_neg (by rw [hffspec]; decide)]
          rw [hl]
        rw [hgoal]

/-! Counting terminators. -/

lemma countTerms_nil : countTerms [] = 0 := rfl

lemma countTerms_one (c : Nat) : countTerms [c] = if isNl c then 1 else 0 := rfl

lemma countTerms_cons_cons (c1 c2 : Nat) (r : List Nat) :
    countTerms (c1 :: c2 :: r) =
      if c1 = 13 ∧ c2 = 10 then countTerms r + 1
      else (if isNl c1 then 1 else 0) + countTerms (c2 :: r) := rfl

lemma countTerms_nlfree (L : Nat) : ∀ a : List Nat, a.length ≤ L →
    (∀ c ∈ a, isNl c = false) → countTerms a = 0 := by
  induction L using Nat.strong_induction_on with
  | _ L ih =>
    intro a hL h
    match a with
    | [] => rfl
    | [c] =>
      rw [countTerms_one, if_neg (by rw [h c (by simp)]; exact Bool.false_ne_true)]
    | c1 :: c2 :: r =>
      have h1 : isNl c1 = false := h c1 (by simp)
      have h13 : c1 ≠ 13 := by
        intro hc; rw [hc] at h1; exact absurd h1 (by decide)
      rw [countTerms_cons_cons, if_neg (by tauto), if_neg (by rw [h1]; exact Bool.false_ne_true)]
      have := ih (L - 1) (by simp at hL; omega) (c2 :: r) (by simp at hL ⊢; omega)
        (fun c hc => h c (by simp at hc ⊢; tauto))
      omega

lemma countTerms_append (L : Nat) : ∀ (a b : List Nat), a.length ≤ L →
    ¬ (a.getLast? = some 13 ∧ b.head? = some 10) →
    countTerms (a ++ b) = countTerms a + countTerms b := by
  induction L using Nat.strong_induction_on with
  | _ L ih =>
    intro a b hL hmerge
    match a with
    | [] => simp [countTerms_nil]
    | [c] =>
      match b with
      | [] => simp [countTerms_nil]
      | b1 :: b' =>
        have hm : ¬ (c = 13 ∧ b1 = 10) := by
          intro ⟨hc, hb⟩
          exact hmerge (by simp [hc, hb])
        rw [List.singleton_append, countTerms_cons_cons, if_neg hm, countTerms_one]
    | c1 :: c2 :: r =>
      have hlast : (c1 :: c2 :: r).getLast? = (c2 :: r).getLast? := List.getLast?_cons_cons
      rw [show (c1 :: c2 :: r) ++ b = c1 :: c2 :: (r ++ b) by simp,
        countTerms_cons_cons, countTerms_cons_cons]
      by_cases hc : c1 = 13 ∧ c2 = 10
      · rw [if_pos hc, if_pos hc]
        match r with
        | [] => simp [countTerms_nil]; omega
        | r1 :: r' =>
          have hr : (c2 :: r1 :: r').getLast? = (r1 :: r').getLast? :=
            List.getLast?_cons_cons
          have := ih (L - 2) (by simp at hL; omega) (r1 :: r') b
            (by simp at hL ⊢; omega)
            (by rw [hlast, hr] at hmerge; exact hmerge)
          omega
      · rw [if_neg hc, if_neg hc]
        have := ih (L - 1) (by simp at hL; omega) (c2 :: r) b
          (by simp at hL ⊢; omega)
          (by rw [hlast] at hmerge; exact hmerge)
        rw [show c2 :: (r ++ b) = (c2 :: r) ++ b by simp, this]
        omega

/-! Helpers for decomposing one step of the reference recursion. -/

lemma ff_hit_nl (t : List Nat) (i : Nat)
    (h : find_furthest_new_line t U = (i : Int)) : isNl (t.getD i 0) = true := by
  rcases ff_cases t U with ⟨i', hf, ⟨n, hn, hocc⟩, _⟩ | ⟨hf, _⟩
  · rw [hf] at h
    have : i' = i := by exact_mod_cast h
    subst this
    exact (occ_U_nl t n i' hn hocc).1
  · rw [hf] at h
    exact absurd h (by omega)

lemma ff_hit_no_nl_after (t : List Nat) (i : Nat)
    (h : find_furthest_new_line t U = (i : Int)) :
    ∀ c ∈ t.drop (i + 1), isNl c = false := by
  rcases ff_cases t U with ⟨i', hf, _, hmax⟩ | ⟨hf, _⟩
  · rw [hf] at h
    have : i' = i := by exact_mod_cast h
    subst this
    exact after_ff_no_nl t i' hmax
  · rw [hf] at h
    exact absurd h (by omega)

lemma ff_miss_no_nl (t : List Nat)
    (h : find_furthest_new_line t U = -1) : ∀ c ∈ t, isNl c = false := by
  rcases ff_cases t U with ⟨i', hf, _, _⟩ | ⟨hf, hnone⟩
  · rw [hf] at h
    exact absurd h (by omega)
  · exact none_ff_no_nl t hnone

lemma getD_take_lt (t : List Nat) (m j : Nat) (h : j < m) :
    (t.take m).getD j 0 = t.getD j 0 := by
  have hg : ∀ (l : List Nat) (a d : Nat), l.getD a d = (l.get? a).getD d :=
    fun _ _ _ => rfl
  rw [hg, hg, List.get?_take h]

lemma getD_last_append (r s : List Nat) (hs : s ≠ []) :
    (r ++ s).getD ((r ++ s).length - 1) 0 = s.getD (s.length - 1) 0 := by
  have hg : ∀ (l : List Nat) (a d : Nat), l.getD a d = (l.get? a).getD d :=
    fun _ _ _ => rfl
  have hslen : 1 ≤ s.length := by
    rcases s with _ | ⟨c, s'⟩
    · exact absurd rfl hs
    · simp
  rw [hg, hg, List.length_append,
    List.get?_append_right (by omega)]
  have he : r.length + s.length - 1 - r.length = s.length - 1 := by omega
  rw [he]

lemma stripN_zero_last (P : List Nat) (h0 : stripN P = 0) (hne : P ≠ []) :
    isNl (P.getD (P.length - 1) 0) = false := by
  by_contra h
  rw [Bool.not_eq_false] at h
  have h1 : 1 ≤ P.length := by
    rcases P with _ | ⟨c, s'⟩
    · exact absurd rfl hne
    · simp
  have := stripN_pos_last P P.length h1 (le_refl _) h
  rw [List.take_length] at this
  omega

/-- The stripped part never ends in 13 while the stripped terminator is the
single byte 10: the longest-match strip would have taken 13-10 instead. -/
lemma no_split_crlf (P : List Nat)
    (hlast : (remove_trailing_new_line P U).getD
      ((remove_trailing_new_line P U).length - 1) 0 = 13)
    (ht : remove_trailing_new_line P U ≠ [])
    (hk : stripN P = 1)
    (hsuf : P.drop (P.length - stripN P) = [10]) : False := by
  set t := remove_trailing_new_line P U with htdef
  have hsplit := strip_decomp P
  rw [hsuf, ← htdef] at hsplit
  have htlen : 1 ≤ t.length := by
    rcases ht' : t with _ | ⟨c, s'⟩
    · exact absurd ht' ht
    · simp
  have hgl : t.getLast ht = 13 := by
    rw [List.getLast_eq_getElem t ht, ← hlast]
    rw [List.getD_eq_getElem t 0 (by omega)]
  have hdl : t.dropLast ++ [13] = t := by
    rw [← hgl]
    exact List.dropLast_append_getLast ht
  have hsufP : [13, 10].isSuffixOf P = true := by
    rw [isSuffixOf_char]
    refine ⟨t.dropLast, ?_⟩
    rw [hsplit, ← hdl]
    simp
  have : stripN P = 2 := by
    unfold stripN
    rw [if_pos hsufP]
  omega

lemma countTerms_strip_suffix (P : List Nat) :
    countTerms (P.drop (P.length - stripN P)) = if stripN P = 0 then 0 else 1 := by
  rcases stripSuffix_cases P with ⟨h, hk⟩ | ⟨h, hk⟩ | ⟨h, hk⟩ | ⟨h, hk⟩
  · rw [h, hk]; rfl
  · rw [h, hk]; rfl
  · rw [h, hk]; rfl
  · rw [h, hk]; rfl

/-- Reconstruction: the lines of a prefix, each re-joined with its original
terminator (possibly absent for the first produced line, which is the last
line of the prefix) and concatenated in reverse emission order, rebuild the
prefix exactly. -/
lemma spec_reconstruct (L : Nat) : ∀ P : List Nat, P.length ≤ L →
    ∃ ts : List (List Nat),
      ts.length = (specLinesF (P.length + 1) P).length ∧
      (∀ x ∈ ts, x = [13, 10] ∨ x = [10] ∨ x = [13] ∨ x = []) ∧
      (∀ x ∈ ts.tail, x ≠ []) ∧
      (isNl (P.getD (P.length - 1) 0) = true → ∀ x ∈ ts, x ≠ []) ∧
      ((specLinesF (P.length + 1) P).zipWith (fun l u => l ++ u) ts).reverse.flatten
        = P := by
  induction L using Nat.strong_induction_on with
  | _ L ih =>
    intro P hPL
    by_cases hP : P.length = 0
    · rw [List.length_eq_zero] at hP
      subst hP
      exact ⟨[], by simp [specLinesF], by simp, by simp, by simp, by simp [specLinesF]⟩
    · set k := stripN P with hk
      set t := remove_trailing_new_line P U with ht
      set suf := P.drop (P.length - k) with hsuf
      have hsplit : P = t ++ suf := strip_decomp P
      have htlen : t.length = P.length - k := remT_len P
      have hkle : k ≤ P.length := stripN_le P
      rw [specLinesF_succ, if_neg hP]
      by_cases hpos : 0 ≤ find_furthest_new_line t U
      · set ir := (find_furthest_new_line t U).toNat with hir
        have hff : find_furthest_new_line t U = (ir : Int) :=
          (Int.toNat_of_nonneg hpos).symm
        have hirlt : ir < t.length := ff_hit_lt_len t ir hff
        have hdec : ir + 1 < P.length := by
          apply spec_dec P P.length ir (by omega) (le_refl _)
          rw [List.take_length, ← ht, hff]
        set P' := t.take (ir + 1) with hP'
        have hP'len : P'.length = ir + 1 := by
          rw [hP', List.length_take]
          omega
        obtain ⟨ts', hlen', hmem', htail', hcond', hrec'⟩ :=
          ih (L - 1) (by omega) P' (by omega)
        have hirrel : specLinesF P.length P' = specLinesF (P'.length + 1) P' := by
          apply specLinesF_irrel P.length
          · omega
          · omega
          · omega
        have hlastP' : isNl (P'.getD (P'.length - 1) 0) = true := by
          rw [hP'len]
          have : P'.getD ir 0 = t.getD ir 0 := by
            rw [hP']
            exact getD_take_lt t (ir + 1) ir (by omega)
          simp only [Nat.add_sub_cancel, this]
          exact ff_hit_nl t ir hff
        have hts'ne : ∀ x ∈ ts', x ≠ [] := hcond' hlastP'
        rw [if_pos hpos]
        refine ⟨suf :: ts', ?_, ?_, ?_, ?_, ?_⟩
        · simp only [List.length_cons, hlen', hirrel]
        · intro x hx
          rcases List.mem_cons.mp hx with rfl | hx'
          · rw [hsuf, hk]
            rcases stripSuffix_cases P with ⟨h, _⟩ | ⟨h, _⟩ | ⟨h, _⟩ | ⟨h, _⟩ <;>
              rw [h] <;> tauto
          · exact hmem' x hx'
        · intro x hx
          exact hts'ne x hx
        · intro hlast x hx
          rcases List.mem_cons.mp hx with rfl | hx'
          · have hkpos : 1 ≤ k := by
              rw [hk]
              have hpl := stripN_pos_last P P.length (by omega) (le_refl _) hlast
              rw [List.take_length] at hpl
              exact hpl
            rcases stripSuffix_cases P with ⟨_, h0⟩ | ⟨h, _⟩ | ⟨h, _⟩ | ⟨h, _⟩
            · omega
            · rw [hsuf, hk, h]; simp
            · rw [hsuf, hk, h]; simp
            · rw [hsuf, hk, h]; simp
          · exact hts'ne x hx'
        · rw [hirrel]
          simp only [List.zipWith_cons_cons, List.reverse_cons, List.flatten_append,
            List.flatten_cons, List.flatten_nil, List.append_nil, hrec']
          rw [← List.append_assoc, hP', List.take_append_drop, ← hsplit]
      · rw [if_neg hpos]
        have hff : find_furthest_new_line t U = -1 := by
          rcases ff_cases t U with ⟨i', hf, _, _⟩ | ⟨hf, _⟩
          · rw [hf] at hpos
            exact absurd (Int.ofNat_nonneg i') hpos
          · exact hf
        refine ⟨[suf], by simp, ?_, by simp, ?_, ?_⟩
        · intro x hx
          rcases List.mem_cons.mp hx with rfl | hx'
          · rw [hsuf, hk]
            rcases stripSuffix_cases P with ⟨h, _⟩ | ⟨h, _⟩ | ⟨h, _⟩ | ⟨h, _⟩ <;>
              rw [h] <;> tauto
          · exact absurd hx' (List.not_mem_nil x)
        · intro hlast x hx
          have hkpos : 1 ≤ k := by
            rw [hk]
            have hpl := stripN_pos_last P P.length (by omega) (le_refl _) hlast
            rw [List.take_length] at hpl
            exact hpl
          rcases List.mem_cons.mp hx with rfl | hx'
          · rcases stripSuffix_cases P with ⟨_, h0⟩ | ⟨h, _⟩ | ⟨h, _⟩ | ⟨h, _⟩
            · omega
            · rw [hsuf, hk, h]; simp
            · rw [hsuf, hk, h]; simp
            · rw [hsuf, hk, h]; simp
          · exact absurd hx' (List.not_mem_nil x)
        · simp only [List.zipWith_cons_cons, List.zipWith_nil_right,
            List.reverse_cons, List.reverse_nil, List.nil_append,
            List.flatten_cons, List.flatten_nil, List.append_nil]
          exact hsplit.symm

lemma getD_last_mem (l : List Nat) (h : l ≠ []) :
    l.getD (l.length - 1) 0 ∈ l := by
  have h1 : 1 ≤ l.length := by
    rcases l with _ | ⟨c, s⟩
    · exact absurd rfl h
    · simp
  rw [List.getD_eq_getElem l 0 (by omega)]
  exact List.getElem_mem _

lemma getLast?_eq_getD (l : List Nat) (h : l ≠ []) :
    l.getLast? = some (l.getD (l.length - 1) 0) := by
  rw [List.getLast?_eq_getLast l h, List.getLast_eq_getElem l h,
    List.getD_eq_getElem l 0 (by
      have : 1 ≤ l.length := by
        rcases l with _ | ⟨c, s⟩
        · exact absurd rfl h
        · simp
      omega)]

lemma head?_mem (l : List Nat) (c : Nat) (h : l.head? = some c) : c ∈ l := by
  rcases l with _ | ⟨x, s⟩
  · exact absurd h (by simp)
  · simp at h
    simp [h]

/-- Number of emitted lines: one per terminator, plus one more when the
prefix ends with unterminated content. -/
lemma spec_count (L : Nat) : ∀ P : List Nat, P.length ≤ L →
    (specLinesF (P.length + 1) P).length =
      countTerms P + (if P ≠ [] ∧ isNl (P.getD (P.length - 1) 0) = false then 1 else 0) := by
  induction L using Nat.strong_induction_on with
  | _ L ih =>
    intro P hPL
    by_cases hP : P.length = 0
    · rw [List.length_eq_zero] at hP
      subst hP
      rw [if_neg (by simp)]
      rfl
    · set k := stripN P with hk
      set t := remove_trailing_new_line P U with ht
      set suf := P.drop (P.length - k) with hsuf
      have hsplit : P = t ++ suf := strip_decomp P
      have htlen : t.length = P.length - k := remT_len P
      have hkle : k ≤ P.length := stripN_le P
      have hcsuf : countTerms suf = if k = 0 then 0 else 1 := by
        rw [hsuf, hk]
        rw [countTerms_strip_suffix P]
      have hsuf4 := stripSuffix_cases P
      rw [← hk, ← hsuf] at hsuf4
      rw [specLinesF_succ, if_neg hP]
      by_cases hpos : 0 ≤ find_furthest_new_line t U
      · set ir := (find_furthest_new_line t U).toNat with hir
        have hff : find_furthest_new_line t U = (ir : Int) :=
          (Int.toNat_of_nonneg hpos).symm
        have hirlt : ir < t.length := ff_hit_lt_len t ir hff
        have hdec : ir + 1 < P.length := by
          apply spec_dec P P.length ir (by omega) (le_refl _)
          rw [List.take_length, ← ht, hff]
        set P' := t.take (ir + 1) with hP'
        set line := t.drop (ir + 1) with hline
        have hP'len : P'.length = ir + 1 := by
          rw [hP', List.length_take]
          omega
        have hirrel : specLinesF P.length P' = specLinesF (P'.length + 1) P' := by
          apply specLinesF_irrel P.length
          · omega
          · omega
          · omega
        have hlineNl : ∀ c ∈ line, isNl c = false := by
          rw [hline]
          exact ff_hit_no_nl_after t ir hff
        have hlastP' : P'.getD (P'.length - 1) 0 = t.getD ir 0 := by
          rw [hP'len]
          rw [hP']
          simp only [Nat.add_sub_cancel]
          exact getD_take_lt t (ir + 1) ir (by omega)
        have hlastNl : isNl (t.getD ir 0) = true := ff_hit_nl t ir hff
        have hIH := ih (L - 1) (by omega) P' (by omega)
        have hextra' : (if P' ≠ [] ∧ isNl (P'.getD (P'.length - 1) 0) = false
            then 1 else 0) = 0 := by
          rw [if_neg]
          rintro ⟨_, hfalse⟩
          rw [hlastP', hlastNl] at hfalse
          exact Bool.true_eq_false.mp hfalse
        rw [hextra'] at hIH
        have hdecomp : P = P' ++ (line ++ suf) := by
          rw [← List.append_assoc, hP', hline, List.take_append_drop, ← hsplit]
        have hmerge1 : ¬ (P'.getLast? = some 13 ∧ (line ++ suf).head? = some 10) := by
          rintro ⟨hl13, hh10⟩
          rw [getLast?_eq_getD P' (by rw [← List.length_pos_iff_ne_nil]; omega)] at hl13
          rw [hlastP'] at hl13
          have ht13 : t.getD ir 0 = 13 := by
            simpa using hl13
          rcases hlineeq : line with _ | ⟨c, line'⟩
          · rw [hlineeq] at hh10
            simp only [List.nil_append] at hh10
            rcases hsuf4 with ⟨h, hk0⟩ | ⟨h, hk2⟩ | ⟨h, hk1⟩ | ⟨h, hk1⟩
            · rw [h] at hh10; exact absurd hh10 (by simp)
            · rw [h] at hh10
              simp at hh10
            · have hlen0 : line.length = 0 := by rw [hlineeq]; rfl
              rw [hline] at hlen0
              simp only [List.length_drop] at hlen0
              have hlast13 : t.getD (t.length - 1) 0 = 13 := by
                rw [show t.length - 1 = ir by omega]
                exact ht13
              have htne : t ≠ [] := by
                intro hnil
                rw [hnil] at hirlt
                simp at hirlt
              exact no_split_crlf P hlast13 htne hk1 h
            · rw [h] at hh10
              simp at hh10
          · rw [hlineeq] at hh10
            simp only [List.cons_append, List.head?_cons, Option.some.injEq] at hh10
            have : isNl c = false := hlineNl c (by rw [hlineeq]; simp)
            rw [hh10] at this
            exact absurd this (by decide)
        have hmerge2 : ¬ (line.getLast? = some 13 ∧ suf.head? = some 10) := by
          rintro ⟨hl13, _⟩
          rcases hlineeq : line with _ | ⟨c, line'⟩
          · rw [hlineeq] at hl13; exact absurd hl13 (by simp)
          · have hne : line ≠ [] := by rw [hlineeq]; simp
            rw [getLast?_eq_getD line hne] at hl13
            have hmem : line.getD (line.length - 1) 0 ∈ line :=
              getD_last_mem line hne
            have := hlineNl _ hmem
            rw [Option.some_inj.mp hl13] at this
            exact absurd this (by decide)
        have hc1 : countTerms P = countTerms P' + countTerms (line ++ suf) := by
          rw [hdecomp]
          exact countTerms_append P'.length P' (line ++ suf) (le_refl _) hmerge1
        have hc2 : countTerms (line ++ suf) = countTerms line + countTerms suf :=
          countTerms_append line.length line suf (le_refl _) hmerge2
        have hc3 : countTerms line = 0 :=
          countTerms_nlfree line.length line (le_refl _) hlineNl
        rw [if_pos hpos]
        simp only [List.length_cons, hirrel, hIH]
        by_cases hk0 : k = 0
        · have hsufnil : suf = [] := by
            rcases hsuf4 with ⟨h, _⟩ | ⟨_, hk2⟩ | ⟨_, hk1⟩ | ⟨_, hk1⟩
            · exact h
            · omega
            · omega
            · omega
          have hextra : (if P ≠ [] ∧ isNl (P.getD (P.length - 1) 0) = false
              then 1 else 0) = 1 := by
            rw [if_pos]
            refine ⟨by rw [← List.length_pos_iff_ne_nil]; omega, ?_⟩
            apply stripN_zero_last P (by rw [← hk]; exact hk0)
            rw [← List.length_pos_iff_ne_nil]; omega
          rw [hextra, hc1, hc2, hc3, hcsuf, if_pos hk0]
        · have hsufne : suf ≠ [] := by
            rcases hsuf4 with ⟨_, h0⟩ | ⟨h, _⟩ | ⟨h, _⟩ | ⟨h, _⟩
            · omega
            · rw [h]; simp
            · rw [h]; simp
            · rw [h]; simp
          have hlastnl : isNl (P.getD (P.length - 1) 0) = true := by
            rw [hsplit, getD_last_append t suf hsufne]
            rcases hsuf4 with ⟨_, h0⟩ | ⟨h, _⟩ | ⟨h, _⟩ | ⟨h, _⟩
            · omega
            · rw [h]; rfl
            · rw [h]; rfl
            · rw [h]; rfl
          have hextra : (if P ≠ [] ∧ isNl (P.getD (P.length - 1) 0) = false
              then 1 else 0) = 0 := by
            rw [if_neg]
            rintro ⟨_, hfalse⟩
            rw [hlastnl] at hfalse
            exact Bool.true_eq_false.mp hfalse
          rw [hextra, hc1, hc2, hc3, hcsuf, if_neg hk0]
      · rw [if_neg hpos]
        have hff : find_furthest_new_line t U = -1 := by
          rcases ff_cases t U with ⟨i', hf, _, _⟩ | ⟨hf, _⟩
          · rw [hf] at hpos
            exact absurd (Int.ofNat_nonneg i') hpos
          · exact hf
        have htNl : ∀ c ∈ t, isNl c = false := ff_miss_no_nl t hff
        have hmerge : ¬ (t.getLast? = some 13 ∧ suf.head? = some 10) := by
          rintro ⟨hl13, _⟩
          rcases htt : t with _ | ⟨c, t'⟩
          · rw [htt] at hl13; exact absurd hl13 (by simp)
          · have hne : t ≠ [] := by rw [htt]; simp
            rw [getLast?_eq_getD t hne] at hl13
            have hmem : t.getD (t.length - 1) 0 ∈ t :=
              getD_last_mem t hne
            have := htNl _ hmem
            rw [Option.some_inj.mp hl13] at this
            exact absurd this (by decide)
        have hc1 : countTerms P = countTerms t + countTerms suf := by
          rw [hsplit]
          exact countTerms_append t.length t suf (le_refl _) hmerge
        have hc3 : countTerms t = 0 :=
          countTerms_nlfree t.length t (le_refl _) htNl
        simp only [List.length_cons, List.length_nil]
        by_cases hk0 : k = 0
        · have hextra : (if P ≠ [] ∧ isNl (P.getD (P.length - 1) 0) = false
              then 1 else 0) = 1 := by
            rw [if_pos]
            refine ⟨by rw [← List.length_pos_iff_ne_nil]; omega, ?_⟩
            apply stripN_zero_last P (by rw [← hk]; exact hk0)
            rw [← List.length_pos_iff_ne_nil]; omega
          rw [hextra, hc1, hc3, hcsuf, if_pos hk0]
        · have hsufne : suf ≠ [] := by
            rcases hsuf4 with ⟨_, h0⟩ | ⟨h, _⟩ | ⟨h, _⟩ | ⟨h, _⟩
            · omega
            · rw [h]; simp
            · rw [h]; simp
            · rw [h]; simp
          have hlastnl : isNl (P.getD (P.length - 1) 0) = true := by
            rw [hsplit, getD_last_append t suf hsufne]
            rcases hsuf4 with ⟨_, h0⟩ | ⟨h, _⟩ | ⟨h, _⟩ | ⟨h, _⟩
            · omega
            · rw [h]; rfl
            · rw [h]; rfl
            · rw [h]; rfl
          have hextra : (if P ≠ [] ∧ isNl (P.getD (P.length - 1) 0) = false
              then 1 else 0) = 0 := by
            rw [if_neg]
            rintro ⟨_, hfalse⟩
            rw [hlastnl] at hfalse
            exact Bool.true_eq_false.mp hfalse
          rw [hextra, hc1, hc3, hcsuf, if_neg hk0]

/-! Support lemmas for the claim theorems. -/

lemma add_to_buffer_chunk (s : BufferWorkSpace) (content : List Nat) (q : Nat) :
    (s.add_to_buffer content q).chunk_size = s.chunk_size := rfl

lemma add_to_buffer_pos (s : BufferWorkSpace) (content : List Nat) (q : Nat) :
    (s.add_to_buffer content q).read_position = q := rfl

/-- General termination of the fill loop: any state with a positive chunk
size reaches a yieldable state within read_position + 2 rounds. -/
lemma ruy_total_general (p : Nat) : ∀ s : BufferWorkSpace, 1 ≤ s.chunk_size →
    s.read_position ≤ p →
    ∃ s', read_until_yieldable_fuel (p + 2) s = some s' ∧ s'.yieldable = true := by
  induction p using Nat.strong_induction_on with
  | _ p ih =>
    intro s hc hle
    by_cases hy : s.yieldable = true
    · exact ⟨s, ruy_of_yieldable s hy _, hy⟩
    · set s1 := s.add_to_buffer
        (get_next_chunk s.fp s.read_position s.chunk_size s.new_lines_bytes).1
        (get_next_chunk s.fp s.read_position s.chunk_size s.new_lines_bytes).2 with hs1
      have hstep : read_until_yieldable_fuel (p + 2) s =
          read_until_yieldable_fuel (p + 1) s1 := by
        rw [show p + 2 = (p + 1) + 1 by omega]
        rw [show read_until_yieldable_fuel ((p + 1) + 1) s =
          if s.yieldable then some s else read_until_yieldable_fuel (p + 1)
            (s.add_to_buffer
              (get_next_chunk s.fp s.read_position s.chunk_size s.new_lines_bytes).1
              (get_next_chunk s.fp s.read_position s.chunk_size s.new_lines_bytes).2)
          from rfl]
        rw [if_neg hy]
      have hposeq : s1.read_position =
          (get_what_to_read_next s.fp s.read_position s.chunk_size s.new_lines_bytes).1 :=
        rfl
      rcases Nat.eq_zero_or_pos s.read_position with h0 | hpos
      · have hseek0 : s1.read_position = 0 := by
          rw [hposeq]
          have := gwtrn_seek_le s.fp s.read_position s.chunk_size s.new_lines_bytes
          omega
        obtain ⟨b1, hb1⟩ : ∃ b, s1.read_buffer = some b := ⟨_, rfl⟩
        have hy1 : s1.yieldable = true := yieldable_pos0_some s1 b1 hb1 hseek0
        refine ⟨s1, ?_, hy1⟩
        rw [hstep]
        exact ruy_of_yieldable s1 hy1 _
      · have hdec : s1.read_position < s.read_position := by
          rw [hposeq]
          exact gwtrn_dec s.fp s.read_position s.chunk_size s.new_lines_bytes hc hpos
        have hp1 : 1 ≤ p := by omega
        obtain ⟨s', hruy, hy'⟩ := ih (p - 1) (by omega) s1
          (by rw [add_to_buffer_chunk]; exact hc) (by omega)
        refine ⟨s', ?_, hy'⟩
        rw [hstep, show p + 1 = (p - 1) + 2 by omega]
        exact hruy

/-- The fill loop never increases the read position. -/
lemma ruy_pos_mono (f : Nat) : ∀ s s' : BufferWorkSpace,
    read_until_yieldable_fuel f s = some s' →
    s'.read_position ≤ s.read_position := by
  induction f with
  | zero =>
    intro s s' h
    unfold read_until_yieldable_fuel at h
    split at h
    · rw [Option.some_inj] at h; rw [← h]
    · exact absurd h (by simp)
  | succ f ihf =>
    intro s s' h
    rw [show read_until_yieldable_fuel (f + 1) s =
      if s.yieldable then some s else read_until_yieldable_fuel f
        (s.add_to_buffer
          (get_next_chunk s.fp s.read_position s.chunk_size s.new_lines_bytes).1
          (get_next_chunk s.fp s.read_position s.chunk_size s.new_lines_bytes).2)
      from rfl] at h
    split at h
    · rw [Option.some_inj] at h; rw [← h]
    · have h1 := ihf _ _ h
      rw [add_to_buffer_pos] at h1
      have h2 := gwtrn_seek_le s.fp s.read_position s.chunk_size s.new_lines_bytes
      have : (get_next_chunk s.fp s.read_position s.chunk_size s.new_lines_bytes).2 =
          (get_what_to_read_next s.fp s.read_position s.chunk_size s.new_lines_bytes).1 :=
        rfl
      rw [this] at h1
      omega

/-- return_line leaves the read position unchanged. -/
lemma return_line_pos (s s' : BufferWorkSpace) (l : List Nat)
    (h : s.return_line = some (l, s')) : s'.read_position = s.read_position := by
  unfold BufferWorkSpace.return_line at h
  by_cases hy : s.yieldable = true
  · rw [if_pos hy] at h
    rcases hb : s.read_buffer with _ | buf
    · rw [hb] at h
      exact absurd h (by simp)
    · rw [hb] at h
      simp only at h
      split at h
      · rw [Option.some_inj] at h
        have := congrArg Prod.snd h
        simp only at this
        rw [← this]
      · rw [Option.some_inj] at h
        have := congrArg Prod.snd h
        simp only at this
        rw [← this]
  · rw [if_neg hy] at h
    exact absurd h (by simp)

lemma step_pos_mono (s s' : BufferWorkSpace) (h : Step s s') :
    s'.read_position ≤ s.read_position := by
  cases h with
  | fill f _ _ hf => exact ruy_pos_mono f s s' hf
  | produce l _ _ hp => exact le_of_eq (return_line_pos s s' l hp)

lemma reaches_pos_mono (s s' : BufferWorkSpace) (h : Reaches s s') :
    s'.read_position ≤ s.read_position := by
  induction h with
  | refl => exact le_refl _
  | tail _ hstep ihs =>
    exact le_trans (step_pos_mono _ _ hstep) ihs

/-- The freshly constructed state satisfies the buffer invariant with the
boundary at the end of the file. -/
lemma init_Inv (fp : List Nat) (c : Nat) (hc : 1 ≤ c) :
    Inv fp fp.length (BufferWorkSpace.init fp c) := by
  refine ⟨rfl, rfl, hc, le_refl _, le_refl _, ?_, Or.inl ⟨rfl, rfl⟩⟩
  right
  show fp.getD fp.length 0 ≠ 10
  rw [List.getD_eq_default fp 0 (le_refl _)]
  omega

/-- The complete backward iteration always succeeds with fuel file length + 1
and produces exactly the lines of the pure reference function. -/
lemma backward_lines_eq (fp : List Nat) (c : Nat) (hc : 1 ≤ c) :
    backward_lines fp c = some (specLinesF (fp.length + 1) fp) := by
  unfold backward_lines
  obtain ⟨s', hrun, _, _⟩ := runAllF_correct fp.length fp (BufferWorkSpace.init fp c)
    (fp.length + 1) (init_Inv fp c hc) (by omega)
  rw [hrun]
  simp only [Option.map_some', List.take_length]

/-- After the full iteration the final state is exhausted. -/
lemma backward_lines_final (fp : List Nat) (c : Nat) (hc : 1 ≤ c) :
    ∃ s', runAllF (fp.length + 1) (BufferWorkSpace.init fp c) =
        some (specLinesF (fp.length + 1) fp, s') ∧
      s'.has_returned_every_line = true := by
  obtain ⟨s', hrun, hp, hb⟩ := runAllF_correct fp.length fp (BufferWorkSpace.init fp c)
    (fp.length + 1) (init_Inv fp c hc) (by omega)
  refine ⟨s', ?_, (hret_char s').mpr ⟨hp, hb⟩⟩
  rw [hrun, List.take_length]

/-- Maximality of the furthest-newline hit. -/
lemma ff_hit_max (t : List Nat) (i : Nat)
    (h : find_furthest_new_line t U = (i : Int)) :
    ∀ n ∈ U, ∀ j, occurAt t n j → j ≤ i := by
  rcases ff_cases t U with ⟨i', hf, _, hmax⟩ | ⟨hf, _⟩
  · rw [hf] at h
    have : i' = i := by exact_mod_cast h
    subst this
    exact hmax
  · rw [hf] at h
    exact absurd h (by omega)

/-! Claim theorems. -/

/-- C5: chunk-size independence. For every file content and any two positive
chunk sizes, the full backward iteration produces exactly the same sequence
of line byte strings. -/
theorem chunk_size_independence (fp : List Nat) (c1 c2 : Nat)
    (h1 : 1 ≤ c1) (h2 : 1 ≤ c2) :
    backward_lines fp c1 = backward_lines fp c2 := by
  rw [backward_lines_eq fp c1 h1, backward_lines_eq fp c2 h2]

/-- C5 witness: chunk sizes 1 and 4 on the file "one\ntwo\nthree" produce
the same line sequence. -/
theorem chunk_size_independence_witness :
    backward_lines [111, 110, 101, 10, 116, 119, 111, 10, 116, 104, 114, 101, 101] 1 =
      backward_lines [111, 110, 101, 10, 116, 119, 111, 10, 116, 104, 114, 101, 101] 4 :=
  chunk_size_independence _ 1 4 (by decide) (by decide)

/-- C1: round trip. If the backward iteration emits lines ls, there are
terminator byte strings ts, one per line, each a recognized terminator
except possibly the first (the terminator of the file's last line, absent
when that line is unterminated), such that concatenating line ++ terminator
in reverse emission order reproduces the file exactly. -/
theorem roundtrip (fp : List Nat) (c : Nat) (ls : List (List Nat))
    (hc : 1 ≤ c) (hrun : backward_lines fp c = some ls) :
    ∃ ts : List (List Nat), ts.length = ls.length ∧
      (∀ x ∈ ts, x = [13, 10] ∨ x = [10] ∨ x = [13] ∨ x = []) ∧
      (∀ x ∈ ts.tail, x ≠ []) ∧
      (ls.zipWith (fun l u => l ++ u) ts).reverse.flatten = fp := by
  rw [backward_lines_eq fp c hc, Option.some_inj] at hrun
  obtain ⟨ts, hlen, hmem, htail, _, hrec⟩ :=
    spec_reconstruct fp.length fp (le_refl _)
  refine ⟨ts, ?_, hmem, htail, ?_⟩
  · rw [hlen, hrun]
  · rw [← hrun]
    exact hrec

/-- C1 witness: round trip on the file "a\nb" with chunk size 2. -/
theorem roundtrip_witness :
    ∃ ts : List (List Nat), ts.length = ([[98], [97]] : List (List Nat)).length ∧
      (∀ x ∈ ts, x = [13, 10] ∨ x = [10] ∨ x = [13] ∨ x = []) ∧
      (∀ x ∈ ts.tail, x ≠ []) ∧
      (([[98], [97]] : List (List Nat)).zipWith
        (fun l u => l ++ u) ts).reverse.flatten = [97, 10, 98] :=
  roundtrip [97, 10, 98] 2 [[98], [97]] (by decide) (by rfl)

/-- C9 counterexample: the claim calls the buffer state "empty/absent", but
the code tests only absence: a state with read_position 0 and a present but
empty buffer does not satisfy has_returned_every_line. -/
theorem has_returned_counterexample :
    (BufferWorkSpace.mk [] 0 (some []) 1 new_lines_bytes_utf8).read_position = 0 ∧
    (BufferWorkSpace.mk [] 0 (some []) 1
      new_lines_bytes_utf8).read_buffer = some [] ∧
    (BufferWorkSpace.mk [] 0 (some []) 1
      new_lines_bytes_utf8).has_returned_every_line = false :=
  ⟨rfl, rfl, rfl⟩

/-- C9 (amended): has_returned_every_line is true exactly when read_position
is 0 and the buffer is absent (None; a present-but-empty buffer does not
count).  For a zero-length file it is true immediately after construction
and no line is ever produced, and after the full backward iteration the
number of produced lines equals the number of terminators plus one extra
when unterminated trailing content exists. -/
theorem has_returned_every_line_char (fp : List Nat) (c : Nat) (hc : 1 ≤ c) :
    (∀ s : BufferWorkSpace, s.has_returned_every_line = true ↔
      (s.read_position = 0 ∧ s.read_buffer = none)) ∧
    ((BufferWorkSpace.init [] c).has_returned_every_line = true ∧
      backward_lines [] c = some []) ∧
    (∀ ls, backward_lines fp c = some ls →
      ls.length = countTerms fp +
        (if fp ≠ [] ∧ isNl (fp.getD (fp.length - 1) 0) = false then 1 else 0)) := by
  refine ⟨hret_char, ⟨rfl, ?_⟩, ?_⟩
  · rw [backward_lines_eq [] c hc]
    rfl
  · intro ls hls
    rw [backward_lines_eq fp c hc, Option.some_inj] at hls
    rw [← hls]
    exact spec_count fp.length fp (le_refl _)

/-- C9 witness: instantiation on the file "a\n" with chunk size 1: the file
has one terminator and no unterminated trailing content, and the iteration
produces exactly one line. -/
theorem has_returned_every_line_char_witness :
    backward_lines [] 1 = some [] ∧
      ∀ ls, backward_lines [97, 10] 1 = some ls →
        ls.length = countTerms [97, 10] +
          (if [97, 10] ≠ [] ∧ isNl (([97, 10] : List Nat).getD
            (([97, 10] : List Nat).length - 1) 0) = false then 1 else 0) :=
  ⟨(has_returned_every_line_char [] 1 (by decide)).2.1.2,
   (has_returned_every_line_char [97, 10] 1 (by decide)).2.2⟩

/-- C2 counterexample: the claim says yieldable returns false when the
buffer is "empty or absent", but the code tests only absence: with a
present-but-empty buffer and read_position 0, yieldable returns true. -/
theorem yieldable_counterexample :
    (BufferWorkSpace.mk [] 0 (some []) 1 new_lines_bytes_utf8).read_buffer = some [] ∧
    (BufferWorkSpace.mk [] 0 (some []) 1 new_lines_bytes_utf8).yieldable = true :=
  ⟨rfl, rfl⟩

/-- C2 (amended): yieldable returns false when the buffer is absent (None);
when a buffer is present (even empty), after stripping one trailing
terminator it returns true iff a terminator occurrence remains in what is
left, or read_position is 0. -/
theorem yieldable_char (s : BufferWorkSpace) :
    (s.read_buffer = none → s.yieldable = false) ∧
    (s.yieldable = true ↔ ∃ b, s.read_buffer = some b ∧
      ((∃ n ∈ s.new_lines_bytes, ∃ i,
          occurAt (remove_trailing_new_line b s.new_lines_bytes) n i) ∨
       s.read_position = 0)) := by
  refine ⟨yieldable_none s, ?_⟩
  rcases hb : s.read_buffer with _ | buf
  · rw [yieldable_none s hb]
    constructor
    · intro h
      exact absurd h Bool.false_ne_true
    · rintro ⟨b, hsome, _⟩
      exact absurd hsome (by simp)
  · have hyld : s.yieldable =
        (if 0 ≤ find_furthest_new_line
            (remove_trailing_new_line buf s.new_lines_bytes) s.new_lines_bytes then
          true
        else if s.read_position = 0 then true
        else false) := by
      unfold BufferWorkSpace.yieldable
      rw [hb]
    rcases ff_cases (remove_trailing_new_line buf s.new_lines_bytes)
        s.new_lines_bytes with ⟨i, hf, ⟨n, hn, hocc⟩, _⟩ | ⟨hf, hnone⟩
    · rw [hyld, hf, if_pos (Int.ofNat_nonneg i)]
      constructor
      · intro _
        exact ⟨buf, rfl, Or.inl ⟨n, hn, i, hocc⟩⟩
      · intro _
        rfl
    · rw [hyld, hf, if_neg (by decide)]
      by_cases hp : s.read_position = 0
      · rw [if_pos hp]
        constructor
        · intro _
          exact ⟨buf, rfl, Or.inr hp⟩
        · intro _
          rfl
      · rw [if_neg hp]
        constructor
        · intro h
          exact absurd h Bool.false_ne_true
        · rintro ⟨b, hsome, hor⟩
          rw [Option.some_inj] at hsome
          subst hsome
          rcases hor with ⟨n, hn, i, hocc⟩ | hp0
          · exact absurd hocc (hnone n hn i)
          · exact absurd hp0 hp

/-- C2 witness: an absent buffer makes yieldable false. -/
theorem yieldable_char_witness :
    (BufferWorkSpace.init [10, 97] 3).yieldable = false :=
  (yieldable_char (BufferWorkSpace.init [10, 97] 3)).1 rfl

/-- C8: calling return_line in a state where yieldable is false is exactly
the failing case: the assertion-style contract failure (modelled as none)
occurs iff yieldable is false, so data is never silently returned in such a
state. -/
theorem return_line_contract (s : BufferWorkSpace) :
    s.return_line = none ↔ s.yieldable = false := by
  constructor
  · intro h
    by_contra hne
    have hy : s.yieldable = true := by
      revert hne; cases s.yieldable <;> simp
    unfold BufferWorkSpace.return_line at h
    rw [if_pos hy] at h
    rcases hb : s.read_buffer with _ | buf
    · rw [yieldable_none s hb] at hy
      exact absurd hy Bool.false_ne_true
    · rw [hb] at h
      simp only at h
      split at h
      · exact absurd h (by simp)
      · exact absurd h (by simp)
  · intro h
    unfold BufferWorkSpace.return_line
    rw [if_neg (by rw [h]; exact Bool.false_ne_true)]

/-- C6: termination of read_until_yieldable. For every buffer state with a
positive chunk size, the fill loop succeeds within read_position + 2 rounds
ending in a yieldable state; moreover while read_position is positive each
chunk read strictly decreases it, and once it reaches 0, the state after
one more merge is yieldable, so the loop performs finitely many rounds. -/
theorem read_until_yieldable_terminates (s : BufferWorkSpace)
    (hc : 1 ≤ s.chunk_size) :
    (∃ s', read_until_yieldable_fuel (s.read_position + 2) s = some s' ∧
      s'.yieldable = true) ∧
    (0 < s.read_position →
      (get_next_chunk s.fp s.read_position s.chunk_size s.new_lines_bytes).2
        < s.read_position) ∧
    (s.read_position = 0 →
      (s.add_to_buffer
        (get_next_chunk s.fp s.read_position s.chunk_size s.new_lines_bytes).1
        (get_next_chunk s.fp s.read_position s.chunk_size s.new_lines_bytes).2).yieldable
        = true) := by
  refine ⟨ruy_total_general s.read_position s hc (le_refl _), ?_, ?_⟩
  · intro hpos
    exact gwtrn_dec s.fp s.read_position s.chunk_size s.new_lines_bytes hc hpos
  · intro h0
    set s1 := s.add_to_buffer
      (get_next_chunk s.fp s.read_position s.chunk_size s.new_lines_bytes).1
      (get_next_chunk s.fp s.read_position s.chunk_size s.new_lines_bytes).2 with hs1
    have hseek0 : s1.read_position = 0 := by
      rw [add_to_buffer_pos]
      have := gwtrn_seek_le s.fp s.read_position s.chunk_size s.new_lines_bytes
      show (get_what_to_read_next s.fp s.read_position s.chunk_size
        s.new_lines_bytes).1 = 0
      omega
    obtain ⟨b1, hb1⟩ : ∃ b, s1.read_buffer = some b := ⟨_, rfl⟩
    exact yieldable_pos0_some s1 b1 hb1 hseek0

/-- C6 witness: the fill loop on a fresh two-byte file with chunk size 1. -/
theorem read_until_yieldable_terminates_witness :
    ∃ s', read_until_yieldable_fuel
        ((BufferWorkSpace.init [10, 97] 1).read_position + 2)
        (BufferWorkSpace.init [10, 97] 1) = some s' ∧
      s'.yieldable = true :=
  (read_until_yieldable_terminates (BufferWorkSpace.init [10, 97] 1) (by decide)).1

/-- C7: boundary invariant. Read positions are naturals in this model (the
source clamps with max(..., 0)), every state reachable from construction has
read_position at most the file size, and read_position never increases
across any further sequence of fill and produce operations. -/
theorem read_position_invariant (fp : List Nat) (c : Nat) (s s' : BufferWorkSpace)
    (h1 : Reaches (BufferWorkSpace.init fp c) s) (h2 : Reaches s s') :
    0 ≤ s.read_position ∧ s.read_position ≤ fp.length ∧
      s'.read_position ≤ s.read_position := by
  refine ⟨Nat.zero_le _, ?_, reaches_pos_mono s s' h2⟩
  have := reaches_pos_mono (BufferWorkSpace.init fp c) s h1
  exact this

/-- C7 witness: one fill step on the file "\na" with chunk size 1. -/
theorem read_position_invariant_witness :
    0 ≤ (BufferWorkSpace.mk [10, 97] 0 (some [10, 97]) 1
        new_lines_bytes_utf8).read_position ∧
    (BufferWorkSpace.mk [10, 97] 0 (some [10, 97]) 1
        new_lines_bytes_utf8).read_position ≤ ([10, 97] : List Nat).length ∧
    (BufferWorkSpace.mk [10, 97] 0 (some [10, 97]) 1
        new_lines_bytes_utf8).read_position ≤
      (BufferWorkSpace.mk [10, 97] 0 (some [10, 97]) 1
        new_lines_bytes_utf8).read_position :=
  read_position_invariant [10, 97] 1 _ _
    (Relation.ReflTransGen.single
      (Step.fill 4 _ _ (by rfl)))
    Relation.ReflTransGen.refl

/-- C4: next-read computation. The tentative seek offset is
previously_read_position - chunk_size clamped at 0 (natural subtraction);
the final offset is at most that, every position walked past holds a byte
found in some terminator at index at least 1 (its first occurrence not at
index 0), the walk stops at offset 0 or at a byte that is not such a
continuation byte, and the final read size is the walk-enlarged chunk size
clamped to previously_read_position - final offset. -/
theorem next_read_computation (fp : List Nat) (prev c : Nat)
    (nls : List (List Nat)) (hc : 1 ≤ c) :
    (get_what_to_read_next fp prev c nls).1 ≤ prev - c ∧
    (∀ q, (get_what_to_read_next fp prev c nls).1 < q → q ≤ prev - c →
      ∃ n ∈ nls, (∃ k, 1 ≤ k ∧ occurAt n (bRead fp q 1) k) ∧
        ¬ occurAt n (bRead fp q 1) 0) ∧
    ((get_what_to_read_next fp prev c nls).1 = 0 ∨
      ¬ ∃ n ∈ nls, (∃ k, 1 ≤ k ∧
          occurAt n (bRead fp (get_what_to_read_next fp prev c nls).1 1) k) ∧
        ¬ occurAt n (bRead fp (get_what_to_read_next fp prev c nls).1 1) 0) ∧
    (get_what_to_read_next fp prev c nls).2 =
      min (c + ((prev - c) - (get_what_to_read_next fp prev c nls).1))
        (prev - (get_what_to_read_next fp prev c nls).1) := by
  refine ⟨gwtrn_seek_le fp prev c nls, ?_, ?_, ?_⟩
  · intro q hq1 hq2
    have := seekWalk_between fp nls (prev - c) c q hq1 hq2
    exact (is_partly_char (bRead fp q 1) nls).mp this
  · rcases seekWalk_post fp nls (prev - c) c with h0 | hnp
    · left; exact h0
    · right
      intro hex
      have := (is_partly_char
        (bRead fp (get_what_to_read_next fp prev c nls).1 1) nls).mpr hex
      rw [show (get_what_to_read_next fp prev c nls).1 =
        (seekWalk fp nls (prev - c) c).1 from rfl] at this
      rw [hnp] at this
      exact Bool.false_ne_true this
  · have hrs := seekWalk_rs fp nls (prev - c) c
    have hle := seekWalk_le fp nls (prev - c) c
    have h1 : (get_what_to_read_next fp prev c nls).1 =
        (seekWalk fp nls (prev - c) c).1 := rfl
    have h2 : (get_what_to_read_next fp prev c nls).2 =
        min (prev - (seekWalk fp nls (prev - c) c).1)
          (seekWalk fp nls (prev - c) c).2 := rfl
    rw [h1, h2]
    omega

/-- C4 witness: on the file "x\r\ny" with previous position 3 and chunk
size 1, the walk moves the offset off the byte 10 back to the byte 13. -/
theorem next_read_computation_witness :
    (get_what_to_read_next [120, 13, 10, 121] 3 1 U).1 ≤ 3 - 1 :=
  (next_read_computation [120, 13, 10, 121] 3 1 U (by decide)).1

/-- Longest-match characterization of remove_trailing_new_line for the
default terminator set. -/
lemma remT_longest (b : List Nat) :
    (∃ n, (n = [13, 10] ∨ n = [10] ∨ n = [13]) ∧ n.isSuffixOf b = true ∧
      (∀ m, (m = [13, 10] ∨ m = [10] ∨ m = [13]) → m.isSuffixOf b = true →
        m.length ≤ n.length) ∧
      remove_trailing_new_line b U = b.take (b.length - n.length)) ∨
    ((∀ n, (n = [13, 10] ∨ n = [10] ∨ n = [13]) → n.isSuffixOf b = false) ∧
      remove_trailing_new_line b U = b) := by
  by_cases h2 : [13, 10].isSuffixOf b = true
  · left
    refine ⟨[13, 10], Or.inl rfl, h2, ?_, ?_⟩
    · intro m hm _
      rcases hm with rfl | rfl | rfl <;> simp
    · rw [remT_eq]
      have hs : stripN b = 2 := by unfold stripN; rw [if_pos h2]
      rw [hs]
      rfl
  · by_cases h10 : [10].isSuffixOf b = true
    · left
      refine ⟨[10], Or.inr (Or.inl rfl), h10, ?_, ?_⟩
      · intro m hm hsuf
        rcases hm with rfl | rfl | rfl
        · exact absurd hsuf h2
        · simp
        · simp
      · rw [remT_eq]
        have hs : stripN b = 1 := by unfold stripN; rw [if_neg h2, if_pos h10]
        rw [hs]
        rfl
    · by_cases h13 : [13].isSuffixOf b = true
      · left
        refine ⟨[13], Or.inr (Or.inr rfl), h13, ?_, ?_⟩
        · intro m hm hsuf
          rcases hm with rfl | rfl | rfl
          · exact absurd hsuf h2
          · simp
          · simp
        · rw [remT_eq]
          have hs : stripN b = 1 := by
            unfold stripN; rw [if_neg h2, if_neg h10, if_pos h13]
          rw [hs]
          rfl
      · right
        constructor
        · intro n hn
          rcases hn with rfl | rfl | rfl
          · exact Bool.eq_false_iff.mpr h2
          · exact Bool.eq_false_iff.mpr h10
          · exact Bool.eq_false_iff.mpr h13
        · rw [remT_eq]
          have hs : stripN b = 0 := by
            unfold stripN; rw [if_neg h2, if_neg h10, if_neg h13]
          rw [hs]
          simp

/-- Shape of the residual buffer after a line is cut at the furthest
newline: it is nonempty, ends with one complete terminator which the next
trailing strip removes exactly, and a trailing 13 is never the first byte
of a split 13-10 pair. -/
lemma take_after_ff (t : List Nat) (i : Nat)
    (hff : find_furthest_new_line t U = (i : Int)) :
    t.take (i + 1) ≠ [] ∧
    (∃ n, (n = [13, 10] ∨ n = [10] ∨ n = [13]) ∧
      n.isSuffixOf (t.take (i + 1)) = true ∧
      remove_trailing_new_line (t.take (i + 1)) U =
        (t.take (i + 1)).take ((t.take (i + 1)).length - n.length) ∧
      (∀ m, (m = [13, 10] ∨ m = [10] ∨ m = [13]) →
        m.isSuffixOf (t.take (i + 1)) = true → m.length ≤ n.length)) ∧
    ((t.take (i + 1)).getD ((t.take (i + 1)).length - 1) 0 = 13 →
      t.getD (i + 1) 0 ≠ 10) := by
  have hilt : i < t.length := ff_hit_lt_len t i hff
  have hnl : isNl (t.getD i 0) = true := ff_hit_nl t i hff
  have hmax := ff_hit_max t i hff
  set b' := t.take (i + 1) with hb'
  have hlen : b'.length = i + 1 := by
    rw [hb', List.length_take]
    omega
  have hne : b' ≠ [] := by
    rw [← List.length_pos_iff_ne_nil, hlen]
    omega
  have hslice : b' = slice t 0 (i + 1) := by
    rw [hb', take_eq_slice]
  have hlastD : b'.getD (b'.length - 1) 0 = t.getD i 0 := by
    rw [hlen, hb']
    simp only [Nat.add_sub_cancel]
    exact getD_take_lt t (i + 1) i (by omega)
  have hi1len : i + 1 ≤ t.length := by omega
  have hsuf10 : [10].isSuffixOf b' = true ↔ t.getD i 0 = 10 := by
    rw [hslice, suffix1_slice_iff t 10 0 (i + 1) (by omega) hi1len]
    constructor
    · rintro ⟨_, h⟩
      rw [show i + 1 - 1 = i by omega] at h
      exact h
    · intro h
      exact ⟨by omega, by rw [show i + 1 - 1 = i by omega]; exact h⟩
  have hsuf13 : [13].isSuffixOf b' = true ↔ t.getD i 0 = 13 := by
    rw [hslice, suffix1_slice_iff t 13 0 (i + 1) (by omega) hi1len]
    constructor
    · rintro ⟨_, h⟩
      rw [show i + 1 - 1 = i by omega] at h
      exact h
    · intro h
      exact ⟨by omega, by rw [show i + 1 - 1 = i by omega]; exact h⟩
  have hsuf1310 : [13, 10].isSuffixOf b' = true ↔
      (2 ≤ i + 1 ∧ t.getD (i - 1) 0 = 13 ∧ t.getD i 0 = 10) := by
    rw [hslice, suffix2_slice_iff t 13 10 0 (i + 1) (by omega) hi1len]
    constructor
    · rintro ⟨hl, h1, h0⟩
      rw [show i + 1 - 2 = i - 1 by omega] at h1
      rw [show i + 1 - 1 = i by omega] at h0
      exact ⟨by omega, h1, h0⟩
    · rintro ⟨hl, h1, h0⟩
      refine ⟨by omega, ?_, ?_⟩
      · rw [show i + 1 - 2 = i - 1 by omega]
        exact h1
      · rw [show i + 1 - 1 = i by omega]
        exact h0
  refine ⟨hne, ?_, ?_⟩
  · unfold isNl at hnl
    simp only [Bool.or_eq_true, beq_iff_eq] at hnl
    rcases hnl with h10 | h13
    · by_cases hcr : 2 ≤ i + 1 ∧ t.getD (i - 1) 0 = 13
      · refine ⟨[13, 10], Or.inl rfl, ?_, ?_, ?_⟩
        · exact hsuf1310.mpr ⟨hcr.1, hcr.2, h10⟩
        · rw [remT_eq]
          have hs : stripN b' = 2 := by
            unfold stripN
            rw [if_pos (hsuf1310.mpr ⟨hcr.1, hcr.2, h10⟩)]
          rw [hs]
          rfl
        · intro m hm _
          rcases hm with rfl | rfl | rfl <;> simp
      · refine ⟨[10], Or.inr (Or.inl rfl), hsuf10.mpr h10, ?_, ?_⟩
        · rw [remT_eq]
          have hncr : [13, 10].isSuffixOf b' = false := by
            rw [Bool.eq_false_iff]
            intro hc
            exact hcr ⟨(hsuf1310.mp hc).1, (hsuf1310.mp hc).2.1⟩
          have hs : stripN b' = 1 := by
            unfold stripN
            rw [if_neg (by rw [hncr]; exact Bool.false_ne_true),
              if_pos (hsuf10.mpr h10)]
          rw [hs]
          rfl
        · intro m hm hsuf
          rcases hm with rfl | rfl | rfl
          · exact absurd ⟨(hsuf1310.mp hsuf).1, (hsuf1310.mp hsuf).2.1⟩ hcr
          · simp
          · simp
    · refine ⟨[13], Or.inr (Or.inr rfl), hsuf13.mpr h13, ?_, ?_⟩
      · rw [remT_eq]
        have hn2 : [13, 10].isSuffixOf b' = false := by
          rw [Bool.eq_false_iff]
          intro hc
          have := (hsuf1310.mp hc).2.2
          omega
        have hn10 : [10].isSuffixOf b' = false := by
          rw [Bool.eq_false_iff]
          intro hc
          have := hsuf10.mp hc
          omega
        have hs : stripN b' = 1 := by
          unfold stripN
          rw [if_neg (by rw [hn2]; exact Bool.false_ne_true),
            if_neg (by rw [hn10]; exact Bool.false_ne_true),
            if_pos (hsuf13.mpr h13)]
        rw [hs]
        rfl
      · intro m hm hsuf
        rcases hm with rfl | rfl | rfl
        · have := (hsuf1310.mp hsuf).2.2
          omega
        · simp
        · simp
  · intro h13 h10next
    rw [hlastD] at h13
    rcases Nat.lt_or_ge (i + 1) t.length with hlt | hge
    · have hocc : occurAt t [10] (i + 1) :=
        (occ_single_iff t 10 (i + 1)).mpr ⟨hlt, h10next⟩
      have := hmax [10] (by simp [U, new_lines_bytes_utf8]) (i + 1) hocc
      omega
    · rw [List.getD_eq_default t 0 hge] at h10next
      omega

/-- C3: functional specification of return_line. In a yieldable state with a
present buffer and the default terminators, return_line succeeds: the working
string t is the buffer with one trailing terminator removed by longest match
among 13-10, 10 and 13; if a terminator occurrence remains in t, the returned
line is everything after the rightmost occurrence and the prefix up to and
including it becomes the new buffer, otherwise all of t is returned and the
buffer becomes absent; the returned line never ends with a terminator. -/
theorem return_line_spec (s : BufferWorkSpace) (b : List Nat)
    (hnls : s.new_lines_bytes = U) (hb : s.read_buffer = some b)
    (hy : s.yieldable = true) :
    ∃ l s', s.return_line = some (l, s') ∧
      ((∃ n, (n = [13, 10] ∨ n = [10] ∨ n = [13]) ∧ n.isSuffixOf b = true ∧
        (∀ m, (m = [13, 10] ∨ m = [10] ∨ m = [13]) → m.isSuffixOf b = true →
          m.length ≤ n.length) ∧
        remove_trailing_new_line b U = b.take (b.length - n.length)) ∨
       ((∀ n, (n = [13, 10] ∨ n = [10] ∨ n = [13]) → n.isSuffixOf b = false) ∧
        remove_trailing_new_line b U = b)) ∧
      ((∃ i : Nat, (∃ n ∈ U, occurAt (remove_trailing_new_line b U) n i) ∧
          (∀ n ∈ U, ∀ j, occurAt (remove_trailing_new_line b U) n j → j ≤ i) ∧
          l = (remove_trailing_new_line b U).drop (i + 1) ∧
          s'.read_buffer = some ((remove_trailing_new_line b U).take (i + 1))) ∨
       ((∀ n ∈ U, ∀ j, ¬ occurAt (remove_trailing_new_line b U) n j) ∧
          l = remove_trailing_new_line b U ∧ s'.read_buffer = none)) ∧
      (∀ n ∈ U, n.isSuffixOf l = false) := by
  have hrl : s.return_line =
      (if 0 ≤ find_furthest_new_line (remove_trailing_new_line b U) U then
        some ((remove_trailing_new_line b U).drop
            ((find_furthest_new_line (remove_trailing_new_line b U) U).toNat + 1),
          { s with read_buffer := some ((remove_trailing_new_line b U).take
            ((find_furthest_new_line (remove_trailing_new_line b U) U).toNat + 1)) })
      else some (remove_trailing_new_line b U,
        { s with read_buffer := none })) := by
    unfold BufferWorkSpace.return_line
    rw [if_pos hy]
    simp only [hb, hnls]
  rcases ff_cases (remove_trailing_new_line b U) U with
      ⟨i, hf, ⟨n, hn, hocc⟩, hmax⟩ | ⟨hf, hnone⟩
  · rw [hf, if_pos (Int.ofNat_nonneg i)] at hrl
    simp only [Int.toNat_natCast] at hrl
    refine ⟨_, _, hrl, remT_longest b,
      Or.inl ⟨i, ⟨n, hn, hocc⟩, hmax, rfl, rfl⟩, ?_⟩
    exact noNl_no_suffix _ (after_ff_no_nl (remove_trailing_new_line b U) i hmax)
  · rw [hf, if_neg (by decide : ¬ (0 : Int) ≤ -1)] at hrl
    refine ⟨_, _, hrl, remT_longest b, Or.inr ⟨hnone, rfl, rfl⟩, ?_⟩
    exact noNl_no_suffix _ (none_ff_no_nl (remove_trailing_new_line b U) hnone)

/-- C3 witness: return_line on the buffer "a\r\n" with read_position 0
produces a line that ends with no terminator. -/
theorem return_line_spec_witness :
    ∃ l s',
      (BufferWorkSpace.mk [] 0 (some [97, 13, 10]) 1
        new_lines_bytes_utf8).return_line = some (l, s') ∧
      ∀ n ∈ U, n.isSuffixOf l = false := by
  obtain ⟨l, s', h1, _, _, h4⟩ := return_line_spec
    (BufferWorkSpace.mk [] 0 (some [97, 13, 10]) 1 new_lines_bytes_utf8)
    [97, 13, 10] rfl rfl (by decide)
  exact ⟨l, s', h1, h4⟩

/-- C10: residual buffer invariant. When return_line cuts the working string
t at a rightmost terminator occurrence at index i, the residue t[0:i+1] kept
as the new buffer is nonempty and ends with one complete terminator: some
recognized terminator is a suffix, the next trailing strip removes exactly a
longest such suffix, and when the residue ends in 13 the byte of t after the
cut is not 10, so the kept terminator is never the first half of a split
13-10 pair. -/
theorem residual_buffer_invariant (s : BufferWorkSpace) (b t : List Nat)
    (i : Nat) (hnls : s.new_lines_bytes = U) (hb : s.read_buffer = some b)
    (ht : t = remove_trailing_new_line b U)
    (hff : find_furthest_new_line t U = (i : Int)) :
    ∃ s', s.return_line = some (t.drop (i + 1), s') ∧
      s'.read_buffer = some (t.take (i + 1)) ∧
      t.take (i + 1) ≠ [] ∧
      (∃ n, (n = [13, 10] ∨ n = [10] ∨ n = [13]) ∧
        n.isSuffixOf (t.take (i + 1)) = true ∧
        remove_trailing_new_line (t.take (i + 1)) U =
          (t.take (i + 1)).take ((t.take (i + 1)).length - n.length) ∧
        (∀ m, (m = [13, 10] ∨ m = [10] ∨ m = [13]) →
          m.isSuffixOf (t.take (i + 1)) = true → m.length ≤ n.length)) ∧
      ((t.take (i + 1)).getD ((t.take (i + 1)).length - 1) 0 = 13 →
        t.getD (i + 1) 0 ≠ 10) := by
  subst ht
  have hy : s.yieldable = true := by
    unfold BufferWorkSpace.yieldable
    rw [hb]
    simp only [hnls]
    rw [hff, if_pos (Int.ofNat_nonneg i)]
  have hrl : s.return_line =
      (if 0 ≤ find_furthest_new_line (remove_trailing_new_line b U) U then
        some ((remove_trailing_new_line b U).drop
            ((find_furthest_new_line (remove_trailing_new_line b U) U).toNat + 1),
          { s with read_buffer := some ((remove_trailing_new_line b U).take
            ((find_furthest_new_line (remove_trailing_new_line b U) U).toNat + 1)) })
      else some (remove_trailing_new_line b U,
        { s with read_buffer := none })) := by
    unfold BufferWorkSpace.return_line
    rw [if_pos hy]
    simp only [hb, hnls]
  rw [hff, if_pos (Int.ofNat_nonneg i)] at hrl
  simp only [Int.toNat_natCast] at hrl
  obtain ⟨hne, hterm, hnosplit⟩ :=
    take_after_ff (remove_trailing_new_line b U) i hff
  exact ⟨_, hrl, rfl, hne, hterm, hnosplit⟩

/-- C10 witness: buffer "a\rb\r\n" with the furthest newline at index 1 of
the stripped string "a\rb"; the residue "a\r" ends with the terminator 13. -/
theorem residual_buffer_invariant_witness :
    ∃ s',
      (BufferWorkSpace.mk [] 0 (some [97, 13, 98, 13, 10]) 1
        new_lines_bytes_utf8).return_line =
        some ((remove_trailing_new_line [97, 13, 98, 13, 10] U).drop (1 + 1), s') ∧
      s'.read_buffer =
        some ((remove_trailing_new_line [97, 13, 98, 13, 10] U).take (1 + 1)) := by
  obtain ⟨s', h1, h2, _⟩ := residual_buffer_invariant
    (BufferWorkSpace.mk [] 0 (some [97, 13, 98, 13, 10]) 1 new_lines_bytes_utf8)
    [97, 13, 98, 13, 10] (remove_trailing_new_line [97, 13, 98, 13, 10] U) 1
    rfl rfl rfl (by decide)
  exact ⟨s', h1, h2⟩

end FRB
